import Mathlib

/-!
Verification of the netaddr library: CIDR network arithmetic (`net_utils.go`)
and the canonical IP set (`ipset.go`).

Addresses are big-endian byte strings of width 4 (IPv4) or 16 (IPv6); we
embed them as natural numbers below `2 ^ (8 * width)`.  A CIDR mask of
`ones` leading one bits over `bits = 8 * width` total bits is the number
`2 ^ bits - 2 ^ (bits - ones)`; byte-wise AND/OR/XOR on byte strings of
equal length coincide with `Nat.land`/`Nat.lor`/`Nat.xor` on their values,
and `bytes.Compare` on equal-length strings coincides with the order on
their values.  The `ipTree` binary search tree is not part of the sources
here; following the specification (which fixes the contract and invariants
of the tree but explicitly leaves the concrete search structure open) we
model the tree state by its in-order node list, kept sorted by the fixed
total order (width, address) that keeps the two address families separate.
-/

set_option maxHeartbeats 1000000

namespace Netaddr

/-- Embedding of `netaddr.IPNet` (a Go `net.IPNet` with a CIDR mask):
`width` is the byte length of the address (4 for IPv4, 16 for IPv6),
`ones` the mask's number of leading one bits, `ip` the address value. -/
structure IPNet where
  width : Nat
  ones : Nat
  ip : Nat
deriving DecidableEq, Repr

/-- Total bits of the address, `8 * len(n.IP)`. -/
def IPNet.bits (n : IPNet) : Nat := 8 * n.width

/-- Number of host bits, `bits - ones` from `n.Mask.Size()`. -/
def IPNet.hostBits (n : IPNet) : Nat := n.bits - n.ones

/-- Value of the CIDR mask bytes: `ones` one bits then zero bits. -/
def IPNet.maskNat (n : IPNet) : Nat := 2 ^ n.bits - 2 ^ n.hostBits

/-- `IPNet.Size`: `1 << (bits - ones)` addresses in the network. -/
def IPNet.Size (n : IPNet) : Nat := 2 ^ n.hostBits

/-- `IPNet.NetworkAddr`: the first address, `n.IP` itself. -/
def IPNet.NetworkAddr (n : IPNet) : Nat := n.ip

/-- `IPNet.BroadcastAddr`: byte-wise `n.IP[i] | ^n.Mask[i]`; the complement
of the CIDR mask inside `bits` bits has value `2 ^ hostBits - 1`. -/
def IPNet.BroadcastAddr (n : IPNet) : Nat := n.ip ||| (2 ^ n.hostBits - 1)

/-- Go `net.IPNet.Contains` specialized to an address of the same width as
`n` (the only way it is reached in `ContainsNet`): byte-wise
`nn[i]&m[i] == ip[i]&m[i]`. -/
def IPNet.goContains (n : IPNet) (v : Nat) : Bool :=
  n.ip &&& n.maskNat == v &&& n.maskNat

/-- Go `net.IP.Equal`: equal values at equal widths; a 4-byte address also
equals the 16-byte IPv4-mapped form (ten zero bytes, `0xff 0xff`, then the
same four bytes, i.e. high 12 bytes equal to `0xffff`). -/
def ipEqualGo (w1 a1 w2 a2 : Nat) : Bool :=
  if w1 = w2 then a1 == a2
  else if w1 = 4 ∧ w2 = 16 then a2 / 2 ^ 32 == 65535 && a2 % 2 ^ 32 == a1
  else if w1 = 16 ∧ w2 = 4 then a1 / 2 ^ 32 == 65535 && a1 % 2 ^ 32 == a2
  else false

/-- Equality of the mask byte strings (`bytes.Compare(n.Mask, m.Mask) == 0`):
CIDR masks are equal iff they have the same length and the same number of
leading ones. -/
def maskBytesEq (n m : IPNet) : Bool := n.width == m.width && n.ones == m.ones

/-- `IPNet.ContainsNet` from `net_utils.go`: false across widths, then the
masked-address test, then `true` unless the two network addresses coincide,
in which case the mask bytes must compare `<= 0` (shorter-or-equal mask). -/
def IPNet.ContainsNet (n inner : IPNet) : Bool :=
  if n.width ≠ inner.width then false
  else if !(n.goContains inner.ip) then false
  else if n.ip ≠ inner.ip then true
  else decide (n.maskNat ≤ inner.maskNat)

/-- `IPNet.DivideInHalf`: mask gains one more one bit; the second half's
address is `mask & (n.IP | extraOne)` where `extraOne = mask ^ n.Mask`
is the newly added mask bit. -/
def IPNet.DivideInHalf (n : IPNet) : IPNet × IPNet :=
  let newOnes := n.ones + 1
  let newMask := 2 ^ n.bits - 2 ^ (n.bits - newOnes)
  let extraOne := newMask ^^^ n.maskNat
  let ip2 := newMask &&& (n.ip ||| extraOne)
  (⟨n.width, newOnes, n.ip⟩, ⟨n.width, newOnes, ip2⟩)

/-- `IPNet.CanCombineWith`: fails if the addresses are `Equal` or the mask
bytes differ; otherwise builds the candidate parent (same address, one mask
bit fewer) and succeeds iff it contains `m`. -/
def IPNet.CanCombineWith (n m : IPNet) : Bool × Option IPNet :=
  if ipEqualGo n.width n.ip m.width m.ip then (false, none)
  else if !maskBytesEq n m then (false, none)
  else
    let newNet : IPNet := ⟨n.width, n.ones - 1, n.ip⟩
    if newNet.ContainsNet m then (true, some newNet) else (false, some newNet)

/-- `IPNet.Difference n m`, with an explicit recursion bound; the Go code
recurses on ever-smaller halves of `n`, gaining one mask bit per step, so
`8 * width` steps always suffice (`Difference` below applies that bound). -/
def diffRun (fuel : Nat) (n m : IPNet) : List IPNet :=
  if n.width ≠ m.width then [n]
  else if m.ContainsNet n then []
  else if !(n.ContainsNet m) then [n]
  else
    match fuel with
    | 0 => []
    | fuel + 1 =>
      let p := n.DivideInHalf
      if m.ip < p.2.ip then p.2 :: diffRun fuel p.1 m
      else p.1 :: diffRun fuel p.2 m

/-- `IPNet.Difference` from `net_utils.go`. -/
def IPNet.Difference (n m : IPNet) : List IPNet := diffRun (8 * n.width) n m

/-- `incrementIP`: add one with byte-wise carry from the least significant
byte, wrapping to all zeroes on overflow of the full width. -/
def incrementIP (w v : Nat) : Nat := (v + 1) % 2 ^ (8 * w)

/-- The address sequence produced by `Expand`'s fill loop: `size` addresses
starting at `ip`, each obtained from the previous by `incrementIP`. -/
def expandFrom (w ip : Nat) : Nat → List Nat
  | 0 => []
  | k + 1 => ip :: expandFrom w (incrementIP w ip) k

/-- `IPNet.Expand`: at most `limit` addresses, further capped at
`1 << (bits-ones)` when the network has fewer than `2^30` addresses and at
`1 << 30` otherwise. -/
def IPNet.Expand (n : IPNet) (limit : Nat) : List Nat :=
  let mx := if n.hostBits < 30 then 2 ^ n.hostBits else 2 ^ 30
  let size := if mx < limit then mx else limit
  expandFrom n.width n.ip size

/-! ### Parsing (`ParseNet` / `ParseIPNet`)

The text-level tokenizing is done by the Go standard library's
`net.ParseCIDR`, an external dependency of this repository; we model its
result abstractly: a CIDR text is either malformed, or parses to a width,
a prefix length and an address value, in which case `net.ParseCIDR`
returns the address as written together with the network obtained by
masking it.  The host-bits rejection logic on top of it is the
repository's own (`net_utils.go`). -/

/-- Abstract model of a CIDR text as classified by `net.ParseCIDR`. -/
inductive CIDRText where
  | malformed : CIDRText
  | wellFormed (width ones addr : Nat) : CIDRText
deriving DecidableEq, Repr

/-- The two distinct parse failures. -/
inductive ParseError where
  | malformedInput : ParseError
  | nonZeroHostBits : ParseError
deriving DecidableEq, Repr

/-- Model of `net.ParseCIDR`: on success it yields the address exactly as
written plus the network with the address masked down to the prefix. -/
def parseCIDRModel : CIDRText → Option (Nat × IPNet)
  | .malformed => none
  | .wellFormed w p a =>
    let n : IPNet := ⟨w, p, a⟩
    some (a, ⟨w, p, a &&& n.maskNat⟩)

/-- `ParseNet` from `net_utils.go`: propagate the parse error, then reject
with a distinct error when the written address differs from the masked
network address (non-zero host part). -/
def ParseNet (t : CIDRText) : Except ParseError IPNet :=
  match parseCIDRModel t with
  | none => .error .malformedInput
  | some (ip, parsed) =>
    if ip ≠ parsed.ip then .error .nonZeroHostBits else .ok parsed

/-- `ParseIPNet` wraps `ParseNet`, propagating its error unchanged. -/
def ParseIPNet (t : CIDRText) : Except ParseError IPNet :=
  match ParseNet t with
  | .error e => .error e
  | .ok n => .ok n

/-! ### The IP set

`IPSet` holds an `ipTree`; the tree code itself is not among the sources,
so it is modelled from the spec by its in-order node list (the spec fixes
the tree's contract — ordered traversal, disjointness, absorption on
insert, coalescing to a fixed point, splitting on remove — and leaves the
concrete search structure free).  The list is kept sorted by the fixed
total order (width, address). -/

abbrev IPSet := List IPNet

/-- The fixed total order on stored networks: by width first (keeping the
two address families separate), then by address. -/
def keyLt (x y : IPNet) : Bool :=
  x.width < y.width || (x.width == y.width && x.ip < y.ip)

/-- Insert into a sorted list at the ordered position. -/
def insertPos (x : IPNet) : List IPNet → List IPNet
  | [] => [x]
  | y :: l => if keyLt x y then x :: y :: l else y :: insertPos x l

/-- Modelled from the spec: `ipTree.insert`.  If an existing node's network
already contains the candidate, nothing changes and the candidate is not
inserted; otherwise every node fully covered by the candidate is absorbed
(removed) and the candidate is placed at its ordered position.  The Boolean
reports whether the candidate was inserted (the `s.tree != newNode &&
newNode.up == nil` test in `InsertIPNet`). -/
def IPSet.treeInsert (s : IPSet) (x : IPNet) : IPSet × Bool :=
  if s.any (fun node => node.ContainsNet x) then (s, false)
  else (insertPos x (s.filter (fun node => !(x.ContainsNet node))), true)

/-- Modelled from the spec: `ipTree.prev`, the in-order predecessor of a
stored node — the greatest stored network strictly before `x`. -/
def prevOf (s : IPSet) (x : IPNet) : Option IPNet :=
  (s.filter (fun n => keyLt n x)).getLast?

/-- Modelled from the spec: `ipTree.next`, the in-order successor of a
stored node — the least stored network strictly after `x`. -/
def nextOf (s : IPSet) (x : IPNet) : Option IPNet :=
  (s.filter (fun n => keyLt x n)).head?

/-- One pass of the body of `InsertIPNet`'s coalescing loop, after the
candidate has been placed: try to combine the predecessor with the
candidate, then the (possibly merged) candidate with the successor of the
originally placed node. -/
def coalesceStep (t : IPSet) (cur : IPNet) : IPNet :=
  let n1 :=
    match prevOf t cur with
    | some p =>
      match p.CanCombineWith cur with
      | (true, some merged) => merged
      | _ => cur
    | none => cur
  match nextOf t cur with
  | some nx =>
    match n1.CanCombineWith nx with
    | (true, some merged) => merged
    | _ => n1
  | none => n1

/-- The iterative fixed-point coalescing loop of `InsertIPNet`: place the
candidate (stopping if an existing node already covers it), combine with
the neighbors, and repeat with the merged network until nothing combines.
Each merge strictly decreases the candidate's mask length, so `ones + 1`
iterations always suffice (`InsertIPNet` applies that bound). -/
def insertLoop : Nat → IPSet → IPNet → IPSet
  | 0, s, _ => s
  | fuel + 1, s, newNet =>
    match IPSet.treeInsert s newNet with
    | (t, false) => t
    | (t, true) =>
      let n2 := coalesceStep t newNet
      if n2 = newNet then t else insertLoop fuel t n2

/-- `IPSet.InsertIPNet` from `ipset.go` (for a non-nil argument). -/
def IPSet.InsertIPNet (s : IPSet) (net : IPNet) : IPSet :=
  insertLoop (net.ones + 1) s net

/-- Sort a list of networks by the tree order (used when the pieces of a
`Difference`, produced largest block first, are placed back as nodes). -/
def sortNets (l : List IPNet) : List IPNet := l.foldr insertPos []

/-- Modelled from the spec: `ipTree.removeNet`.  Every node wholly inside
the removed network is deleted; a node partially overlapping it is replaced
by the nodes of `Difference(node, net)`; other nodes are untouched. -/
def IPSet.RemoveIPNet (s : IPSet) (net : IPNet) : IPSet :=
  s.flatMap (fun node =>
    if net.ContainsNet node then []
    else sortNets (node.Difference net))

/-- Modelled from the spec: `ipTree.contains` — true iff some single
stored node's network fully contains the query network. -/
def IPSet.ContainsIPNet (s : IPSet) (net : IPNet) : Bool :=
  s.any (fun node => node.ContainsNet net)

/-- Go's `MaxInt`, `int(^uint(0) >> 1)`, substituted for a zero limit in
`GetIPs`. -/
def maxIntGo : Nat := 2 ^ 63 - 1

/-- `IPSet.GetIPs` from `ipset.go`: walk the stored networks in ascending
order, expanding each with the remaining budget.  Addresses are returned
with their width. -/
def IPSet.GetIPs (s : IPSet) (limit : Nat) : List (Nat × Nat) :=
  let lim := if limit == 0 then maxIntGo else limit
  s.foldl
    (fun ips node =>
      ips ++ (node.Expand (lim - ips.length)).map (fun a => (node.width, a)))
    []

/-- `IPSet.Difference` from `ipset.go`: insert every stored network of the
first set into a fresh set, then remove every stored network of the other. -/
def IPSet.Difference (s other : IPSet) : IPSet :=
  other.foldl IPSet.RemoveIPNet (s.foldl IPSet.InsertIPNet [])

/-- `IPSet.Intersection` from `ipset.go`: from each side, insert the stored
networks fully contained in the other set. -/
def IPSet.Intersection (s set1 : IPSet) : IPSet :=
  let r1 := s.foldl
    (fun acc node =>
      if IPSet.ContainsIPNet set1 node then IPSet.InsertIPNet acc node else acc) []
  set1.foldl
    (fun acc node =>
      if IPSet.ContainsIPNet s node then IPSet.InsertIPNet acc node else acc) r1

/-! ### Nil-pointer wrappers

The public methods guard their pointer arguments: `InsertIPNet` and
`RemoveIPNet` return at once on a nil network, `ContainsIPNet` reports
false on a nil receiver or nil network.  Nil pointers are modelled by
`Option`. -/

/-- `InsertIPNet` including its `net == nil` guard. -/
def IPSet.InsertIPNetP (s : IPSet) : Option IPNet → IPSet
  | none => s
  | some n => IPSet.InsertIPNet s n

/-- `RemoveIPNet` including its `net == nil` guard. -/
def IPSet.RemoveIPNetP (s : IPSet) : Option IPNet → IPSet
  | none => s
  | some n => IPSet.RemoveIPNet s n

/-- `ContainsIPNet` including its `s == nil || net == nil` guard. -/
def containsIPNetP : Option IPSet → Option IPNet → Bool
  | none, _ => false
  | some _, none => false
  | some s, some n => IPSet.ContainsIPNet s n

/-! ### Semantics and well-formedness -/

/-- The address `v` of width `w` lies in network `n`. -/
def IPNet.memAddr (n : IPNet) (w v : Nat) : Prop :=
  n.width = w ∧ n.ip ≤ v ∧ v ≤ n.BroadcastAddr

instance (n : IPNet) (w v : Nat) : Decidable (n.memAddr w v) := by
  unfold IPNet.memAddr; infer_instance

/-- The address `v` of width `w` lies in some stored network of `s`. -/
def IPSet.memAddr (s : IPSet) (w v : Nat) : Prop :=
  ∃ n ∈ s, n.memAddr w v

instance (s : IPSet) (w v : Nat) : Decidable (IPSet.memAddr s w v) := by
  unfold IPSet.memAddr; infer_instance

/-- A canonical network: positive width, prefix length within the address
width, address within range and with all host bits zero. -/
def Wf (n : IPNet) : Prop :=
  0 < n.width ∧ n.ones ≤ n.bits ∧ n.ip < 2 ^ n.bits ∧ 2 ^ n.hostBits ∣ n.ip

instance (n : IPNet) : Decidable (Wf n) := by
  unfold Wf; infer_instance

/-- `x`'s whole range lies strictly before `y`'s, in the tree order:
smaller width, or same width and `x` ends before `y` begins. -/
def before (x y : IPNet) : Prop :=
  x.width < y.width ∨ (x.width = y.width ∧ x.BroadcastAddr < y.ip)

instance (x y : IPNet) : Decidable (before x y) := by
  unfold before; infer_instance

/-- The combinability check finds nothing to merge for this pair, in
either order. -/
def noCombine (x y : IPNet) : Prop :=
  (x.CanCombineWith y).1 = false ∧ (y.CanCombineWith x).1 = false

instance (x y : IPNet) : Decidable (noCombine x y) := by
  unfold noCombine; infer_instance

/-- The invariant of a stored set: nodes in ascending order with disjoint
ranges, no pair combinable, every node canonical. -/
def Good (s : IPSet) : Prop :=
  s.Pairwise before ∧ s.Pairwise noCombine ∧ ∀ n ∈ s, Wf n

/-- The two networks share no address. -/
def disjointNets (x y : IPNet) : Prop :=
  ∀ w v, ¬ (x.memAddr w v ∧ y.memAddr w v)

/-- A public mutating operation on an `IPSet`. -/
inductive SetOp where
  | insertOp (n : IPNet)
  | removeOp (n : IPNet)
deriving DecidableEq, Repr

/-- The network argument of an operation. -/
def SetOp.net : SetOp → IPNet
  | .insertOp n => n
  | .removeOp n => n

/-- Apply one operation to a set. -/
def applyOp (s : IPSet) : SetOp → IPSet
  | .insertOp n => IPSet.InsertIPNet s n
  | .removeOp n => IPSet.RemoveIPNet s n

/-- Run a sequence of operations starting from the empty set. -/
def runOps (ops : List SetOp) : IPSet := ops.foldl applyOp []

/-- Strict ascending order on width-tagged addresses, matching the tree
order on the networks that produced them. -/
def addrKeyLt (p q : Nat × Nat) : Prop :=
  p.1 < q.1 ∨ (p.1 = q.1 ∧ p.2 < q.2)

instance (p q : Nat × Nat) : Decidable (addrKeyLt p q) := by
  unfold addrKeyLt; infer_instance

instance : DecidableRel before := fun x y => inferInstance

instance : DecidableRel noCombine := fun x y => inferInstance

instance (s : IPSet) : Decidable (Good s) := by
  unfold Good; infer_instance

/-! ## Arithmetic facts about CIDR masks

Canonical networks are dyadic intervals: an aligned base address plus a
power-of-two length.  These lemmas translate the byte-wise mask operations
of the source into interval arithmetic. -/

theorem two_pow_sub_two_pow {b s : Nat} (h : s ≤ b) :
    2 ^ b - 2 ^ s = 2 ^ s * (2 ^ (b - s) - 1) := by
  rw [Nat.mul_sub_one, ← Nat.pow_add]
  congr 2
  omega

theorem hostBits_le_bits (n : IPNet) : n.hostBits ≤ n.bits := by
  unfold IPNet.hostBits
  exact Nat.sub_le _ _

theorem testBit_mask {b s : Nat} (h : s ≤ b) (i : Nat) :
    (2 ^ b - 2 ^ s).testBit i = (decide (s ≤ i) && decide (i < b)) := by
  rw [two_pow_sub_two_pow h, Nat.testBit_mul_pow_two,
    Nat.testBit_two_pow_sub_one]
  simp only [ge_iff_le]
  by_cases h1 : s ≤ i
  · simp only [h1, decide_True, Bool.true_and]
    rw [decide_eq_decide]
    omega
  · simp [h1]

theorem land_mask {b s : Nat} (hs : s ≤ b) {x : Nat} (hx : x < 2 ^ b) :
    x &&& (2 ^ b - 2 ^ s) = 2 ^ s * (x / 2 ^ s) := by
  apply Nat.eq_of_testBit_eq
  intro i
  rw [Nat.testBit_and, testBit_mask hs, Nat.testBit_mul_pow_two,
    ← Nat.shiftRight_eq_div_pow, Nat.testBit_shiftRight]
  simp only [ge_iff_le]
  by_cases h1 : s ≤ i
  · by_cases h2 : i < b
    · simp [h1, h2, Nat.add_sub_cancel' h1]
    · have hx2 : x.testBit i = false :=
        Nat.testBit_lt_two_pow (lt_of_lt_of_le hx
          (Nat.pow_le_pow_right (by norm_num) (by omega)))
      simp [h1, h2, Nat.add_sub_cancel' h1, hx2]
  · simp [h1]

theorem lor_aligned {s a r : Nat} (ha : 2 ^ s ∣ a) (hr : r < 2 ^ s) :
    a ||| r = a + r := by
  obtain ⟨c, rfl⟩ := ha
  exact (Nat.mul_add_lt_is_or hr c).symm

theorem add_of_dvd_lt {d u v : Nat} (hu : d ∣ u) (hv : d ∣ v) (h : u < v) :
    u + d ≤ v := by
  have h1 : d ∣ v - u := Nat.dvd_sub' hv hu
  have h2 : d ≤ v - u := Nat.le_of_dvd (by omega) h1
  omega

theorem div_eq_iff_between {d c v : Nat} (hd : 0 < d) :
    v / d = c ↔ (d * c ≤ v ∧ v < d * (c + 1)) := by
  constructor
  · rintro rfl
    refine ⟨?_, ?_⟩
    · rw [Nat.mul_comm]
      exact Nat.div_mul_le_self v d
    · rw [Nat.mul_comm]
      exact (Nat.div_lt_iff_lt_mul hd).mp (Nat.lt_succ_self _)
  · rintro ⟨h1, h2⟩
    refine Nat.div_eq_of_lt_le ?_ ?_
    · rwa [Nat.mul_comm]
    · rwa [Nat.mul_comm]

theorem broadcastAddr_eq {n : IPNet} (h : Wf n) :
    n.BroadcastAddr = n.ip + (2 ^ n.hostBits - 1) :=
  lor_aligned h.2.2.2 (by have := Nat.two_pow_pos n.hostBits; omega)

theorem ip_add_size_le {n : IPNet} (h : Wf n) :
    n.ip + 2 ^ n.hostBits ≤ 2 ^ n.bits := by
  rcases Nat.eq_zero_or_pos n.ip with h0 | hpos
  · rw [h0]
    simpa using Nat.pow_le_pow_right (by norm_num) (hostBits_le_bits n)
  · exact add_of_dvd_lt h.2.2.2
      (pow_dvd_pow 2 (hostBits_le_bits n)) h.2.2.1

theorem broadcastAddr_lt {n : IPNet} (h : Wf n) :
    n.BroadcastAddr < 2 ^ n.bits := by
  rw [broadcastAddr_eq h]
  have h1 := ip_add_size_le h
  have h2 := Nat.two_pow_pos n.hostBits
  omega

theorem ip_le_broadcastAddr {n : IPNet} (h : Wf n) :
    n.ip ≤ n.BroadcastAddr := by
  rw [broadcastAddr_eq h]
  omega

theorem land_self_mask {n : IPNet} (h : Wf n) :
    n.ip &&& n.maskNat = n.ip := by
  unfold IPNet.maskNat
  rw [land_mask (hostBits_le_bits n) h.2.2.1, Nat.mul_div_cancel' h.2.2.2]

theorem goContains_iff {n : IPNet} (hn : Wf n) {v : Nat} (hv : v < 2 ^ n.bits) :
    n.goContains v = true ↔ (n.ip ≤ v ∧ v ≤ n.BroadcastAddr) := by
  unfold IPNet.goContains
  rw [land_self_mask hn]
  unfold IPNet.maskNat
  rw [land_mask (hostBits_le_bits n) hv, broadcastAddr_eq hn, beq_iff_eq]
  obtain ⟨c, hc⟩ := hn.2.2.2
  have hd := Nat.two_pow_pos n.hostBits
  have hmul : 2 ^ n.hostBits * (c + 1) = 2 ^ n.hostBits * c + 2 ^ n.hostBits := by
    ring
  constructor
  · intro hEq
    have hdiv : v / 2 ^ n.hostBits = c := by
      have h2 := hEq.symm
      rw [hc] at h2
      exact Nat.eq_of_mul_eq_mul_left hd h2
    have hb := (div_eq_iff_between hd).mp hdiv
    omega
  · intro ⟨h1, h2⟩
    have hdiv : v / 2 ^ n.hostBits = c := by
      rw [div_eq_iff_between hd]
      constructor <;> omega
    rw [hdiv, ← hc]

theorem memAddr_iff {n : IPNet} (h : Wf n) {w v : Nat} :
    n.memAddr w v ↔
      n.width = w ∧ n.ip ≤ v ∧ v ≤ n.ip + (2 ^ n.hostBits - 1) := by
  unfold IPNet.memAddr
  rw [broadcastAddr_eq h]

theorem memAddr_lt_two_pow {n : IPNet} (h : Wf n) {w v : Nat}
    (hm : n.memAddr w v) : v < 2 ^ n.bits :=
  lt_of_le_of_lt hm.2.2 (broadcastAddr_lt h)

theorem bits_eq_of_width_eq {n m : IPNet} (h : n.width = m.width) :
    n.bits = m.bits := by
  unfold IPNet.bits
  rw [h]

/-- The range characterization of `ContainsNet` for canonical networks. -/
theorem containsNet_iff {n m : IPNet} (hn : Wf n) (hm : Wf m) :
    n.ContainsNet m = true ↔
      (n.width = m.width ∧ n.ip ≤ m.ip ∧
        m.BroadcastAddr ≤ n.BroadcastAddr) := by
  by_cases hw : n.width = m.width
  · have hbits : n.bits = m.bits := bits_eq_of_width_eq hw
    have hvm : m.ip < 2 ^ n.bits := hbits ▸ hm.2.2.1
    have hs := Nat.two_pow_pos n.hostBits
    have ht := Nat.two_pow_pos m.hostBits
    by_cases hip : n.ip = m.ip
    · have hgc : n.goContains m.ip = true := by
        unfold IPNet.goContains
        rw [← hip]
        exact beq_self_eq_true _
      have hceq : n.ContainsNet m = decide (n.maskNat ≤ m.maskNat) := by
        unfold IPNet.ContainsNet
        rw [if_neg (by simp [hw]), hgc]
        simp [hip]
      rw [hceq, broadcastAddr_eq hn, broadcastAddr_eq hm]
      have hsB : 2 ^ n.hostBits ≤ 2 ^ n.bits :=
        Nat.pow_le_pow_right (by norm_num) (hostBits_le_bits n)
      have htB : 2 ^ m.hostBits ≤ 2 ^ m.bits :=
        Nat.pow_le_pow_right (by norm_num) (hostBits_le_bits m)
      unfold IPNet.maskNat
      rw [← hbits] at htB ⊢
      simp only [decide_eq_true_eq]
      constructor
      · intro hle
        exact ⟨hw, by omega, by omega⟩
      · intro h
        have h3 := h.2.2
        omega
    · have hceq : n.ContainsNet m = n.goContains m.ip := by
        unfold IPNet.ContainsNet
        rw [if_neg (by simp [hw])]
        by_cases hgc : n.goContains m.ip
        · rw [hgc]
          simp [hip, hgc]
        · simp only [Bool.not_eq_true] at hgc
          rw [hgc]
          simp
      rw [hceq]
      constructor
      · intro hgc
        have hrange := (goContains_iff hn hvm).mp hgc
        refine ⟨hw, hrange.1, ?_⟩
        rw [broadcastAddr_eq hn] at hrange
        rw [broadcastAddr_eq hn, broadcastAddr_eq hm]
        by_cases hst : m.hostBits ≤ n.hostBits
        · have hdvd1 : 2 ^ m.hostBits ∣ n.ip + 2 ^ n.hostBits :=
            Nat.dvd_add (dvd_trans (pow_dvd_pow 2 hst) hn.2.2.2)
              (pow_dvd_pow 2 hst)
          have hlt : m.ip < n.ip + 2 ^ n.hostBits := by omega
          have h4 := add_of_dvd_lt hm.2.2.2 hdvd1 hlt
          omega
        · exfalso
          apply hip
          have hdvd2 : 2 ^ n.hostBits ∣ m.ip :=
            dvd_trans (pow_dvd_pow 2 (by omega)) hm.2.2.2
          unfold IPNet.goContains at hgc
          rw [land_self_mask hn] at hgc
          have hland : m.ip &&& n.maskNat = m.ip := by
            unfold IPNet.maskNat
            rw [land_mask (hostBits_le_bits n) hvm, Nat.mul_div_cancel' hdvd2]
          rw [hland, beq_iff_eq] at hgc
          exact hgc
      · intro ⟨_, h1, h2⟩
        rw [goContains_iff hn hvm]
        refine ⟨h1, ?_⟩
        exact le_trans (ip_le_broadcastAddr hm) h2
  · have hres : n.ContainsNet m = false := by
      unfold IPNet.ContainsNet
      rw [if_pos (by simpa using hw)]
    rw [hres]
    simp [hw]

/-! ## Halving and combining -/

theorem hostBits_pos {n : IPNet} (hlt : n.ones < n.bits) : 1 ≤ n.hostBits := by
  unfold IPNet.hostBits
  omega

theorem xor_masks {b s : Nat} (hs : 1 ≤ s) (hb : s ≤ b) :
    (2 ^ b - 2 ^ (s - 1)) ^^^ (2 ^ b - 2 ^ s) = 2 ^ (s - 1) := by
  apply Nat.eq_of_testBit_eq
  intro i
  rw [Nat.testBit_xor, testBit_mask (by omega), testBit_mask hb,
    Nat.testBit_two_pow]
  by_cases h1 : s - 1 ≤ i <;> by_cases h2 : i < b <;> by_cases h3 : s ≤ i <;>
    simp [h1, h2, h3] <;> omega

/-- For a canonical, divisible network, the two halves are the canonical
lower half (same address, one more mask bit) and upper half (address plus
half the size). -/
theorem divideInHalf_eq {n : IPNet} (h : Wf n) (hlt : n.ones < n.bits) :
    n.DivideInHalf = (⟨n.width, n.ones + 1, n.ip⟩,
      ⟨n.width, n.ones + 1, n.ip + 2 ^ (n.hostBits - 1)⟩) := by
  have hs1 : 1 ≤ n.hostBits := hostBits_pos hlt
  have hb1 : n.bits - (n.ones + 1) = n.hostBits - 1 := by
    unfold IPNet.hostBits
    omega
  have hxor : (2 ^ n.bits - 2 ^ (n.hostBits - 1)) ^^^ n.maskNat
      = 2 ^ (n.hostBits - 1) := by
    unfold IPNet.maskNat
    exact xor_masks hs1 (hostBits_le_bits n)
  have hlor : n.ip ||| 2 ^ (n.hostBits - 1) = n.ip + 2 ^ (n.hostBits - 1) :=
    lor_aligned h.2.2.2 (Nat.pow_lt_pow_right (by norm_num) (by omega))
  have hdvd : 2 ^ (n.hostBits - 1) ∣ n.ip + 2 ^ (n.hostBits - 1) :=
    Nat.dvd_add (dvd_trans (pow_dvd_pow 2 (by omega)) h.2.2.2) dvd_rfl
  have hlt2 : n.ip + 2 ^ (n.hostBits - 1) < 2 ^ n.bits := by
    have h1 := ip_add_size_le h
    have h2 : 2 ^ (n.hostBits - 1) < 2 ^ n.hostBits :=
      Nat.pow_lt_pow_right (by norm_num) (by omega)
    omega
  simp only [IPNet.DivideInHalf, hb1, hxor, hlor]
  rw [Nat.and_comm, land_mask (by omega : n.hostBits - 1 ≤ n.bits) hlt2,
    Nat.mul_div_cancel' hdvd]

theorem wf_half_fst {n : IPNet} (h : Wf n) (hlt : n.ones < n.bits) :
    Wf ⟨n.width, n.ones + 1, n.ip⟩ := by
  obtain ⟨hw, ho, hip, hdvd⟩ := h
  refine ⟨hw, ?_, hip, ?_⟩
  · show n.ones + 1 ≤ 8 * n.width
    unfold IPNet.bits at hlt
    omega
  · show 2 ^ (8 * n.width - (n.ones + 1)) ∣ n.ip
    refine dvd_trans (pow_dvd_pow 2 ?_) hdvd
    show 8 * n.width - (n.ones + 1) ≤ n.hostBits
    unfold IPNet.hostBits IPNet.bits
    omega

theorem wf_half_snd {n : IPNet} (h : Wf n) (hlt : n.ones < n.bits) :
    Wf ⟨n.width, n.ones + 1, n.ip + 2 ^ (n.hostBits - 1)⟩ := by
  have hs1 : 1 ≤ n.hostBits := hostBits_pos hlt
  have hadd := ip_add_size_le h
  have h2 : 2 ^ (n.hostBits - 1) < 2 ^ n.hostBits :=
    Nat.pow_lt_pow_right (by norm_num) (by omega)
  obtain ⟨hw, ho, hip, hdvd⟩ := h
  refine ⟨hw, ?_, ?_, ?_⟩
  · show n.ones + 1 ≤ 8 * n.width
    unfold IPNet.bits at hlt
    omega
  · show n.ip + 2 ^ (n.hostBits - 1) < 2 ^ (8 * n.width)
    unfold IPNet.bits at hadd
    omega
  · show 2 ^ (8 * n.width - (n.ones + 1)) ∣ n.ip + 2 ^ (n.hostBits - 1)
    have hE : 8 * n.width - (n.ones + 1) = n.hostBits - 1 := by
      unfold IPNet.hostBits IPNet.bits
      omega
    rw [hE]
    exact Nat.dvd_add (dvd_trans (pow_dvd_pow 2 (by omega)) hdvd) dvd_rfl

/-- `ContainsNet` for a possibly non-canonical outer network with distinct
addresses: membership in the same block at the outer network's scale. -/
theorem containsNet_unaligned {p m : IPNet} (hw : p.width = m.width)
    (hp : p.ip < 2 ^ p.bits) (hm : m.ip < 2 ^ m.bits) (hip : p.ip ≠ m.ip) :
    p.ContainsNet m = true ↔
      p.ip / 2 ^ p.hostBits = m.ip / 2 ^ p.hostBits := by
  have hm2 : m.ip < 2 ^ p.bits := by
    rw [bits_eq_of_width_eq hw]
    exact hm
  unfold IPNet.ContainsNet IPNet.goContains
  rw [if_neg (by simpa using hw)]
  unfold IPNet.maskNat
  rw [land_mask (hostBits_le_bits p) hp, land_mask (hostBits_le_bits p) hm2]
  constructor
  · intro h
    by_contra hdiv
    have hbeq : (2 ^ p.hostBits * (p.ip / 2 ^ p.hostBits)
        == 2 ^ p.hostBits * (m.ip / 2 ^ p.hostBits)) = false := by
      rw [beq_eq_false_iff_ne]
      intro hc
      exact hdiv (Nat.eq_of_mul_eq_mul_left (Nat.two_pow_pos _) hc)
    rw [hbeq] at h
    simp at h
  · intro hdiv
    have hbeq : (2 ^ p.hostBits * (p.ip / 2 ^ p.hostBits)
        == 2 ^ p.hostBits * (m.ip / 2 ^ p.hostBits)) = true := by
      rw [beq_iff_eq, hdiv]
    rw [hbeq]
    simp [hip]

/-- Combinability characterized arithmetically: same width and mask,
different addresses, same parent block at the next-coarser scale. -/
theorem canCombineWith_iff {n m : IPNet} (hn : Wf n) (hm : Wf m) :
    (n.CanCombineWith m).1 = true ↔
      (n.width = m.width ∧ n.ones = m.ones ∧ n.ip ≠ m.ip ∧
        n.ip / 2 ^ (n.hostBits + 1) = m.ip / 2 ^ (n.hostBits + 1)) := by
  unfold IPNet.CanCombineWith
  by_cases hw : n.width = m.width
  · by_cases hip : n.ip = m.ip
    · have heq : ipEqualGo n.width n.ip m.width m.ip = true := by
        unfold ipEqualGo
        rw [if_pos hw]
        exact beq_iff_eq.mpr hip
      rw [if_pos heq]
      simp [hip]
    · have heq : ipEqualGo n.width n.ip m.width m.ip = false := by
        unfold ipEqualGo
        rw [if_pos hw]
        exact beq_eq_false_iff_ne.mpr hip
      rw [if_neg (by simp [heq])]
      by_cases ho : n.ones = m.ones
      · have hmeq : maskBytesEq n m = true := by
          unfold maskBytesEq
          simp [hw, ho]
        rw [if_neg (by simp [hmeq])]
        by_cases h0 : n.ones = 0
        · exfalso
          apply hip
          have hbn : n.hostBits = n.bits := by
            unfold IPNet.hostBits
            omega
          have hbm : m.hostBits = m.bits := by
            unfold IPNet.hostBits
            omega
          have h1 : n.ip = 0 :=
            Nat.eq_zero_of_dvd_of_lt (hbn ▸ hn.2.2.2) hn.2.2.1
          have h2 : m.ip = 0 :=
            Nat.eq_zero_of_dvd_of_lt (hbm ▸ hm.2.2.2) hm.2.2.1
          rw [h1, h2]
        · have hones1 : 1 ≤ n.ones := by omega
          have honesb : n.ones ≤ n.bits := hn.2.1
          have hS : (⟨n.width, n.ones - 1, n.ip⟩ : IPNet).hostBits
              = n.hostBits + 1 := by
            show 8 * n.width - (n.ones - 1) = n.hostBits + 1
            unfold IPNet.hostBits IPNet.bits
            unfold IPNet.bits at honesb
            omega
          have hcn := containsNet_unaligned
            (p := ⟨n.width, n.ones - 1, n.ip⟩) (m := m) hw hn.2.2.1 hm.2.2.1 hip
          rw [hS] at hcn
          by_cases hc : (⟨n.width, n.ones - 1, n.ip⟩ : IPNet).ContainsNet m = true
          · rw [if_pos hc]
            constructor
            · intro _
              exact ⟨hw, ho, hip, hcn.mp hc⟩
            · intro _
              rfl
          · rw [if_neg hc]
            constructor
            · intro hfalse
              simp at hfalse
            · intro hR
              exact absurd (hcn.mpr hR.2.2.2) hc
      · have hmeq : maskBytesEq n m = false := by
          unfold maskBytesEq
          simp [ho]
        rw [if_pos (by simp [hmeq])]
        simp [ho]
  · have hmeq : maskBytesEq n m = false := by
      unfold maskBytesEq
      simp [hw]
    by_cases heq : ipEqualGo n.width n.ip m.width m.ip = true
    · rw [if_pos heq]
      simp [hw]
    · rw [if_neg (by simpa using heq), if_pos (by simp [hmeq])]
      simp [hw]

theorem hostBits_eq_of {n m : IPNet} (hw : n.width = m.width)
    (ho : n.ones = m.ones) : n.hostBits = m.hostBits := by
  unfold IPNet.hostBits
  rw [bits_eq_of_width_eq hw, ho]

theorem canCombineWith_symm {n m : IPNet} (hn : Wf n) (hm : Wf m) :
    (n.CanCombineWith m).1 = true ↔ (m.CanCombineWith n).1 = true := by
  rw [canCombineWith_iff hn hm, canCombineWith_iff hm hn]
  constructor
  · rintro ⟨hw, ho, hip, hdiv⟩
    rw [hostBits_eq_of hw ho] at hdiv
    exact ⟨hw.symm, ho.symm, hip.symm, hdiv.symm⟩
  · rintro ⟨hw, ho, hip, hdiv⟩
    rw [hostBits_eq_of hw ho] at hdiv
    exact ⟨hw.symm, ho.symm, hip.symm, hdiv.symm⟩

theorem canCombineWith_cases {n m : IPNet} (hn : Wf n) (hm : Wf m)
    (h : (n.CanCombineWith m).1 = true) :
    n.width = m.width ∧ n.ones = m.ones ∧ 1 ≤ n.ones ∧
      ((m.ip = n.ip + 2 ^ n.hostBits ∧ 2 ^ (n.hostBits + 1) ∣ n.ip) ∨
       (n.ip = m.ip + 2 ^ n.hostBits ∧ 2 ^ (n.hostBits + 1) ∣ m.ip)) := by
  obtain ⟨hw, ho, hip, hdiv⟩ := (canCombineWith_iff hn hm).mp h
  have hones1 : 1 ≤ n.ones := by
    by_contra h0
    apply hip
    have hbn : n.hostBits = n.bits := by
      unfold IPNet.hostBits
      omega
    have hbm : m.hostBits = m.bits := by
      unfold IPNet.hostBits
      omega
    have h1 : n.ip = 0 := Nat.eq_zero_of_dvd_of_lt (hbn ▸ hn.2.2.2) hn.2.2.1
    have h2 : m.ip = 0 := Nat.eq_zero_of_dvd_of_lt (hbm ▸ hm.2.2.2) hm.2.2.1
    rw [h1, h2]
  refine ⟨hw, ho, hones1, ?_⟩
  have hsm : m.hostBits = n.hostBits := (hostBits_eq_of hw ho).symm
  obtain ⟨cn, hcn⟩ := hn.2.2.2
  obtain ⟨cm, hcm⟩ := hm.2.2.2
  rw [hsm] at hcm
  have hd := Nat.two_pow_pos n.hostBits
  have hps : 2 ^ (n.hostBits + 1) = 2 ^ n.hostBits * 2 := by
    rw [Nat.pow_succ]
  have hdn : n.ip / 2 ^ (n.hostBits + 1) = cn / 2 := by
    rw [hcn, hps, Nat.mul_div_mul_left _ _ hd]
  have hdm : m.ip / 2 ^ (n.hostBits + 1) = cm / 2 := by
    rw [hcm, hps, Nat.mul_div_mul_left _ _ hd]
  rw [hdn, hdm] at hdiv
  have hneq : cn ≠ cm := by
    intro he
    exact hip (by rw [hcn, hcm, he])
  have hcase : (cm = cn + 1 ∧ cn % 2 = 0) ∨ (cn = cm + 1 ∧ cm % 2 = 0) := by
    omega
  rcases hcase with ⟨h1, h2⟩ | ⟨h1, h2⟩
  · left
    constructor
    · rw [hcm, hcn, h1]
      ring
    · obtain ⟨k, hk⟩ : 2 ∣ cn := Nat.dvd_of_mod_eq_zero h2
      exact ⟨k, by rw [hcn, hk, hps]; ring⟩
  · right
    constructor
    · rw [hcm, hcn, h1]
      ring
    · obtain ⟨k, hk⟩ : 2 ∣ cm := Nat.dvd_of_mod_eq_zero h2
      exact ⟨k, by rw [hcm, hk, hps]; ring⟩

theorem canCombineWith_snd {n m : IPNet}
    (h : (n.CanCombineWith m).1 = true) :
    (n.CanCombineWith m).2 = some ⟨n.width, n.ones - 1, n.ip⟩ := by
  simp only [IPNet.CanCombineWith] at h ⊢
  by_cases h1 : ipEqualGo n.width n.ip m.width m.ip = true
  · rw [if_pos h1] at h
    simp at h
  · rw [if_neg (by simpa using h1)] at h ⊢
    by_cases h2 : (!maskBytesEq n m) = true
    · rw [if_pos h2] at h
      simp at h
    · rw [if_neg (by simpa using h2)] at h ⊢
      by_cases h3 : (⟨n.width, n.ones - 1, n.ip⟩ : IPNet).ContainsNet m = true
      · rw [if_pos h3]
      · rw [if_neg h3] at h
        simp at h

/-- The merged network handed back when the receiver is the lower half:
it is canonical and its range is exactly the union of the two halves. -/
theorem merged_lower {n m : IPNet} (hn : Wf n) (hm : Wf m)
    (h : (n.CanCombineWith m).1 = true) (hlow : n.ip < m.ip) :
    Wf ⟨n.width, n.ones - 1, n.ip⟩ ∧
    m.ip = n.ip + 2 ^ n.hostBits ∧
    (∀ w v, (⟨n.width, n.ones - 1, n.ip⟩ : IPNet).memAddr w v ↔
      (n.memAddr w v ∨ m.memAddr w v)) := by
  obtain ⟨hw, ho, hones1, hcase⟩ := canCombineWith_cases hn hm h
  have hup : m.ip = n.ip + 2 ^ n.hostBits ∧ 2 ^ (n.hostBits + 1) ∣ n.ip := by
    rcases hcase with hc | hc
    · exact hc
    · exfalso
      have := Nat.two_pow_pos n.hostBits
      omega
  have hsm : m.hostBits = n.hostBits := (hostBits_eq_of hw ho).symm
  have hS : (⟨n.width, n.ones - 1, n.ip⟩ : IPNet).hostBits = n.hostBits + 1 := by
    show 8 * n.width - (n.ones - 1) = n.hostBits + 1
    have honesb := hn.2.1
    unfold IPNet.bits at honesb
    unfold IPNet.hostBits IPNet.bits
    omega
  have hps : 2 ^ (n.hostBits + 1) = 2 ^ n.hostBits * 2 := Nat.pow_succ ..
  have hmw : Wf ⟨n.width, n.ones - 1, n.ip⟩ := by
    refine ⟨hn.1, ?_, hn.2.2.1, ?_⟩
    · show n.ones - 1 ≤ 8 * n.width
      have := hn.2.1
      unfold IPNet.bits at this
      omega
    · rw [hS]
      exact hup.2
  refine ⟨hmw, hup.1, ?_⟩
  intro w v
  have hlit_ip : (⟨n.width, n.ones - 1, n.ip⟩ : IPNet).ip = n.ip := rfl
  have hlit_w : (⟨n.width, n.ones - 1, n.ip⟩ : IPNet).width = n.width := rfl
  rw [memAddr_iff hmw, memAddr_iff hn, memAddr_iff hm, hS, hsm, hlit_ip,
    hlit_w, hup.1, hw]
  have hd := Nat.two_pow_pos n.hostBits
  have hps2 : 2 ^ (n.hostBits + 1) = 2 ^ n.hostBits * 2 := Nat.pow_succ ..
  constructor
  · rintro ⟨hww, h1, h2⟩
    by_cases hv : v ≤ n.ip + (2 ^ n.hostBits - 1)
    · exact Or.inl ⟨hww, h1, hv⟩
    · exact Or.inr ⟨hww, by omega, by omega⟩
  · rintro (⟨hww, h1, h2⟩ | ⟨hww, h1, h2⟩)
    · exact ⟨hww, h1, by omega⟩
    · exact ⟨hww, by omega, by omega⟩

/-- Splitting then recombining: the lower half plus upper half merge back,
from the lower side to the exact canonical parent, from the upper side to
a network with the parent's mask but the upper half's address. -/
theorem divide_combine {p : IPNet} (hp : Wf p) (hlt : p.ones < p.bits) :
    p.DivideInHalf.1.CanCombineWith p.DivideInHalf.2 = (true, some p) ∧
    p.DivideInHalf.2.CanCombineWith p.DivideInHalf.1 =
      (true, some ⟨p.width, p.ones, p.DivideInHalf.2.ip⟩) := by
  have hde := divideInHalf_eq hp hlt
  have hs1 : 1 ≤ p.hostBits := hostBits_pos hlt
  have hx := wf_half_fst hp hlt
  have hy := wf_half_snd hp hlt
  rw [hde]
  have hd := Nat.two_pow_pos (p.hostBits - 1)
  have hips : p.ip + 2 ^ (p.hostBits - 1) ≠ p.ip := by omega
  have hSx : (⟨p.width, p.ones + 1, p.ip⟩ : IPNet).hostBits = p.hostBits - 1 := by
    show 8 * p.width - (p.ones + 1) = p.hostBits - 1
    unfold IPNet.hostBits IPNet.bits
    omega
  have hSy : (⟨p.width, p.ones + 1, p.ip + 2 ^ (p.hostBits - 1)⟩ : IPNet).hostBits
      = p.hostBits - 1 := hSx
  have hpow : 2 ^ (p.hostBits - 1 + 1) = 2 ^ p.hostBits := by
    congr 1
    omega
  obtain ⟨c, hc⟩ := hp.2.2.2
  have hdiv1 : p.ip / 2 ^ p.hostBits = c := by
    rw [hc]
    exact Nat.mul_div_cancel_left _ (Nat.two_pow_pos _)
  have hdiv2 : (p.ip + 2 ^ (p.hostBits - 1)) / 2 ^ p.hostBits = c := by
    rw [div_eq_iff_between (Nat.two_pow_pos _)]
    have h2 : 2 ^ (p.hostBits - 1) < 2 ^ p.hostBits :=
      Nat.pow_lt_pow_right (by norm_num) (by omega)
    have hmul : 2 ^ p.hostBits * (c + 1) = 2 ^ p.hostBits * c + 2 ^ p.hostBits := by
      ring
    omega
  have hcomb1 : ((⟨p.width, p.ones + 1, p.ip⟩ : IPNet).CanCombineWith
      ⟨p.width, p.ones + 1, p.ip + 2 ^ (p.hostBits - 1)⟩).1 = true := by
    rw [canCombineWith_iff hx hy]
    refine ⟨rfl, rfl, fun hcc => hips hcc.symm, ?_⟩
    show p.ip / 2 ^ ((⟨p.width, p.ones + 1, p.ip⟩ : IPNet).hostBits + 1)
      = (p.ip + 2 ^ (p.hostBits - 1)) / 2 ^ _
    rw [hSx, hpow, hdiv1, hdiv2]
  have hcomb2 : ((⟨p.width, p.ones + 1, p.ip + 2 ^ (p.hostBits - 1)⟩ : IPNet).CanCombineWith
      ⟨p.width, p.ones + 1, p.ip⟩).1 = true :=
    (canCombineWith_symm hx hy).mp hcomb1
  constructor
  · have hsnd := canCombineWith_snd hcomb1
    apply Prod.ext
    · exact hcomb1
    · rw [hsnd]
      simp
  · have hsnd := canCombineWith_snd hcomb2
    apply Prod.ext
    · exact hcomb2
    · rw [hsnd]
      simp

/-! ## Claim C6: range characterization of ContainsNet -/

/-- C6: for canonical networks, `outer.ContainsNet inner` is true exactly
when `inner`'s full range `[network address, broadcast address]` lies
inside `outer`'s (equal ranges count as contained), and it is false
whenever the two networks have different address widths. -/
theorem containsNet_range_spec {outer inner : IPNet}
    (ho : Wf outer) (hi : Wf inner) :
    (outer.ContainsNet inner = true ↔
      outer.width = inner.width ∧
      outer.NetworkAddr ≤ inner.NetworkAddr ∧
      inner.BroadcastAddr ≤ outer.BroadcastAddr) ∧
    (outer.width ≠ inner.width → outer.ContainsNet inner = false) := by
  constructor
  · unfold IPNet.NetworkAddr
    exact containsNet_iff ho hi
  · intro hw
    unfold IPNet.ContainsNet
    rw [if_pos (by simpa using hw)]

theorem containsNet_range_spec_witness :
    Wf ⟨4, 24, 167772160⟩ ∧ Wf ⟨4, 25, 167772288⟩ ∧
    ((⟨4, 24, 167772160⟩ : IPNet).ContainsNet ⟨4, 25, 167772288⟩ = true ↔
      (⟨4, 24, 167772160⟩ : IPNet).width = (⟨4, 25, 167772288⟩ : IPNet).width ∧
      (⟨4, 24, 167772160⟩ : IPNet).NetworkAddr ≤
        (⟨4, 25, 167772288⟩ : IPNet).NetworkAddr ∧
      (⟨4, 25, 167772288⟩ : IPNet).BroadcastAddr ≤
        (⟨4, 24, 167772160⟩ : IPNet).BroadcastAddr) ∧
    ((⟨4, 24, 167772160⟩ : IPNet).width ≠ (⟨4, 25, 167772288⟩ : IPNet).width →
      (⟨4, 24, 167772160⟩ : IPNet).ContainsNet ⟨4, 25, 167772288⟩ = false) :=
  ⟨by decide, by decide,
    (containsNet_range_spec (by decide) (by decide)).1,
    (containsNet_range_spec (by decide) (by decide)).2⟩

/-! ## Claim C5: combinability and halving -/

/-- C5 counterexample: for `p` = 10.0.0.0/24 with `DivideInHalf p = (x, y)`,
the call `y.CanCombineWith x` succeeds but does not return `p`: the merged
network keeps `y`'s address 10.0.0.128 under the /24 mask. -/
theorem canCombine_parent_counterexample :
    ((⟨4, 24, 167772160⟩ : IPNet).DivideInHalf.2.CanCombineWith
        (⟨4, 24, 167772160⟩ : IPNet).DivideInHalf.1).1 = true ∧
    ((⟨4, 24, 167772160⟩ : IPNet).DivideInHalf.2.CanCombineWith
        (⟨4, 24, 167772160⟩ : IPNet).DivideInHalf.1).2 ≠
      some ⟨4, 24, 167772160⟩ ∧
    ((⟨4, 24, 167772160⟩ : IPNet).DivideInHalf.2.CanCombineWith
        (⟨4, 24, 167772160⟩ : IPNet).DivideInHalf.1).2 =
      some ⟨4, 24, 167772288⟩ := by
  decide

/-- The canonical parent block of a lower half: canonical, divisible, with
one more host bit. -/
theorem parent_of_lower {a : IPNet} (ha : Wf a) (ho1 : 1 ≤ a.ones)
    (hal : 2 ^ (a.hostBits + 1) ∣ a.ip) :
    Wf ⟨a.width, a.ones - 1, a.ip⟩ ∧
    (⟨a.width, a.ones - 1, a.ip⟩ : IPNet).ones <
      (⟨a.width, a.ones - 1, a.ip⟩ : IPNet).bits ∧
    (⟨a.width, a.ones - 1, a.ip⟩ : IPNet).hostBits = a.hostBits + 1 := by
  have honesb := ha.2.1
  have hwpos := ha.1
  unfold IPNet.bits at honesb
  have hE : 8 * a.width - (a.ones - 1) = a.hostBits + 1 := by
    unfold IPNet.hostBits IPNet.bits
    omega
  refine ⟨⟨ha.1, ?_, ha.2.2.1, ?_⟩, ?_, hE⟩
  · show a.ones - 1 ≤ 8 * a.width
    omega
  · show 2 ^ (8 * a.width - (a.ones - 1)) ∣ a.ip
    rw [hE]
    exact hal
  · show a.ones - 1 < 8 * a.width
    omega

/-- C5 (amended): `a.CanCombineWith b` succeeds iff `a` and `b` are
exactly the two halves of one common parent (identical prefix lengths,
parent prefix one less); when the receiver is the lower half the returned
merged network is that canonical parent, and when the receiver is the
upper half the returned network carries the parent's mask but keeps the
receiver's (upper-half) address. -/
theorem canCombine_halves {a b p : IPNet} (ha : Wf a) (hb : Wf b)
    (hp : Wf p) (hdiv : p.ones < p.bits) :
    ((a.CanCombineWith b).1 = true ↔
      ∃ q : IPNet, Wf q ∧ q.ones < q.bits ∧
        (q.DivideInHalf = (a, b) ∨ q.DivideInHalf = (b, a))) ∧
    p.DivideInHalf.1.CanCombineWith p.DivideInHalf.2 = (true, some p) ∧
    p.DivideInHalf.2.CanCombineWith p.DivideInHalf.1 =
      (true, some ⟨p.width, p.ones, p.DivideInHalf.2.ip⟩) := by
  refine ⟨⟨?_, ?_⟩, (divide_combine hp hdiv).1, (divide_combine hp hdiv).2⟩
  · intro h
    obtain ⟨hw, ho, hones1, hcase⟩ := canCombineWith_cases ha hb h
    have hsb : b.hostBits = a.hostBits := (hostBits_eq_of hw ho).symm
    rcases hcase with ⟨hup, hal⟩ | ⟨hup, hal⟩
    · obtain ⟨hqwf, hqlt, hqS⟩ := parent_of_lower ha hones1 hal
      refine ⟨⟨a.width, a.ones - 1, a.ip⟩, hqwf, hqlt, Or.inl ?_⟩
      rw [divideInHalf_eq hqwf hqlt, hqS, Nat.add_sub_cancel]
      have h1 : a.ones - 1 + 1 = a.ones := by omega
      show ((⟨a.width, a.ones - 1 + 1, a.ip⟩ : IPNet),
        (⟨a.width, a.ones - 1 + 1, a.ip + 2 ^ a.hostBits⟩ : IPNet)) = (a, b)
      rw [h1]
      have hae : (⟨a.width, a.ones, a.ip⟩ : IPNet) = a := rfl
      have hbe : (⟨a.width, a.ones, a.ip + 2 ^ a.hostBits⟩ : IPNet) = b := by
        obtain ⟨bw, bo, bip⟩ := b
        simp only at hw ho hup
        rw [hw, ho, ← hup]
      rw [hae, hbe]
    · rw [← hsb] at hal
      obtain ⟨hqwf, hqlt, hqS⟩ :=
        parent_of_lower hb (ho ▸ hones1) hal
      refine ⟨⟨b.width, b.ones - 1, b.ip⟩, hqwf, hqlt, Or.inr ?_⟩
      rw [divideInHalf_eq hqwf hqlt, hqS, Nat.add_sub_cancel]
      have h1 : b.ones - 1 + 1 = b.ones := by
        have := ho ▸ hones1
        omega
      show ((⟨b.width, b.ones - 1 + 1, b.ip⟩ : IPNet),
        (⟨b.width, b.ones - 1 + 1, b.ip + 2 ^ b.hostBits⟩ : IPNet)) = (b, a)
      rw [h1]
      have hbe : (⟨b.width, b.ones, b.ip⟩ : IPNet) = b := rfl
      have hae : (⟨b.width, b.ones, b.ip + 2 ^ b.hostBits⟩ : IPNet) = a := by
        rw [hsb]
        obtain ⟨aw, ao, aip⟩ := a
        simp only at hw ho hup
        rw [← hw, ← ho, ← hup]
      rw [hbe, hae]
  · rintro ⟨q, hq, hqlt, hcase | hcase⟩
    · have hqq : a.CanCombineWith b = (true, some q) := by
        have h1 := (divide_combine hq hqlt).1
        rw [hcase] at h1
        exact h1
      rw [hqq]
    · have hqq : a.CanCombineWith b = (true, some ⟨q.width, q.ones, a.ip⟩) := by
        have h1 := (divide_combine hq hqlt).2
        rw [hcase] at h1
        exact h1
      rw [hqq]

theorem canCombine_halves_witness :
    Wf ⟨4, 25, 167772160⟩ ∧ Wf ⟨4, 25, 167772288⟩ ∧ Wf ⟨4, 24, 167772160⟩ ∧
    (⟨4, 24, 167772160⟩ : IPNet).ones < (⟨4, 24, 167772160⟩ : IPNet).bits ∧
    ((((⟨4, 25, 167772160⟩ : IPNet).CanCombineWith ⟨4, 25, 167772288⟩).1 = true ↔
      ∃ q : IPNet, Wf q ∧ q.ones < q.bits ∧
        (q.DivideInHalf = (⟨4, 25, 167772160⟩, ⟨4, 25, 167772288⟩) ∨
         q.DivideInHalf = (⟨4, 25, 167772288⟩, ⟨4, 25, 167772160⟩))) ∧
     (⟨4, 24, 167772160⟩ : IPNet).DivideInHalf.1.CanCombineWith
        (⟨4, 24, 167772160⟩ : IPNet).DivideInHalf.2 =
          (true, some ⟨4, 24, 167772160⟩) ∧
     (⟨4, 24, 167772160⟩ : IPNet).DivideInHalf.2.CanCombineWith
        (⟨4, 24, 167772160⟩ : IPNet).DivideInHalf.1 =
          (true, some ⟨(⟨4, 24, 167772160⟩ : IPNet).width,
            (⟨4, 24, 167772160⟩ : IPNet).ones,
            (⟨4, 24, 167772160⟩ : IPNet).DivideInHalf.2.ip⟩)) :=
  ⟨by decide, by decide, by decide, by decide,
    canCombine_halves (by decide) (by decide) (by decide) (by decide)⟩

/-! ## Claim C8: parsing -/

/-- C8: `ParseNet`/`ParseIPNet` succeed exactly on well-formed CIDR text
whose host bits are zero, returning the address exactly as written (no
silent normalization); non-zero host bits give an error distinct from the
malformed-text error. -/
theorem parse_spec {w p a : Nat} (hp : p ≤ 8 * w) (ha : a < 2 ^ (8 * w)) :
    (ParseNet .malformed = .error .malformedInput ∧
     ParseIPNet .malformed = .error .malformedInput) ∧
    (2 ^ (8 * w - p) ∣ a →
      ParseNet (.wellFormed w p a) = .ok ⟨w, p, a⟩ ∧
      ParseIPNet (.wellFormed w p a) = .ok ⟨w, p, a⟩) ∧
    (¬ 2 ^ (8 * w - p) ∣ a →
      ParseNet (.wellFormed w p a) = .error .nonZeroHostBits ∧
      ParseIPNet (.wellFormed w p a) = .error .nonZeroHostBits) ∧
    ParseError.malformedInput ≠ ParseError.nonZeroHostBits := by
  have hmask : a &&& (⟨w, p, a⟩ : IPNet).maskNat
      = 2 ^ (8 * w - p) * (a / 2 ^ (8 * w - p)) := by
    unfold IPNet.maskNat
    exact land_mask (hostBits_le_bits _) ha
  refine ⟨⟨rfl, rfl⟩, ?_, ?_, by decide⟩
  · intro hdvd
    have heq : a &&& (⟨w, p, a⟩ : IPNet).maskNat = a := by
      rw [hmask, Nat.mul_div_cancel' hdvd]
    constructor
    · show ParseNet (.wellFormed w p a) = .ok ⟨w, p, a⟩
      unfold ParseNet parseCIDRModel
      simp only [heq]
      rw [if_neg (by simp)]
    · show ParseIPNet (.wellFormed w p a) = .ok ⟨w, p, a⟩
      unfold ParseIPNet ParseNet parseCIDRModel
      simp only [heq]
      rw [if_neg (by simp)]
  · intro hdvd
    have hne : a ≠ a &&& (⟨w, p, a⟩ : IPNet).maskNat := by
      intro hEq
      apply hdvd
      rw [hmask] at hEq
      exact ⟨a / 2 ^ (8 * w - p), hEq⟩
    constructor
    · show ParseNet (.wellFormed w p a) = .error .nonZeroHostBits
      unfold ParseNet parseCIDRModel
      simp only []
      rw [if_pos (by simpa using hne)]
    · show ParseIPNet (.wellFormed w p a) = .error .nonZeroHostBits
      unfold ParseIPNet ParseNet parseCIDRModel
      simp only []
      rw [if_pos (by simpa using hne)]

theorem parse_spec_witness :
    (24 : Nat) ≤ 8 * 4 ∧ (256 : Nat) < 2 ^ (8 * 4) ∧
    ((ParseNet .malformed = .error .malformedInput ∧
      ParseIPNet .malformed = .error .malformedInput) ∧
     (2 ^ (8 * 4 - 24) ∣ (256 : Nat) →
       ParseNet (.wellFormed 4 24 256) = .ok ⟨4, 24, 256⟩ ∧
       ParseIPNet (.wellFormed 4 24 256) = .ok ⟨4, 24, 256⟩) ∧
     (¬ 2 ^ (8 * 4 - 24) ∣ (256 : Nat) →
       ParseNet (.wellFormed 4 24 256) = .error .nonZeroHostBits ∧
       ParseIPNet (.wellFormed 4 24 256) = .error .nonZeroHostBits) ∧
     ParseError.malformedInput ≠ ParseError.nonZeroHostBits) :=
  ⟨by decide, by decide, parse_spec (by decide) (by decide)⟩

/-! ## Claim C10: nil-pointer guards -/

/-- C10: inserting or removing a nil network leaves the set unchanged, and
the containment query answers false when the receiver or the argument is
nil. -/
theorem nil_safety (s : IPSet) (net : IPNet) :
    IPSet.InsertIPNetP s none = s ∧
    IPSet.RemoveIPNetP s none = s ∧
    containsIPNetP none (some net) = false ∧
    containsIPNetP none none = false ∧
    containsIPNetP (some s) none = false :=
  ⟨rfl, rfl, rfl, rfl, rfl⟩

/-! ## The difference algorithm -/

theorem ipnet_ext {x y : IPNet} (hw : x.width = y.width)
    (ho : x.ones = y.ones) (hi : x.ip = y.ip) : x = y := by
  obtain ⟨a, b, c⟩ := x
  obtain ⟨d, e, f⟩ := y
  simp only at hw ho hi
  rw [hw, ho, hi]

theorem containsNet_mem {x y : IPNet} (hx : Wf x) (hy : Wf y)
    (h : x.ContainsNet y = true) {w v : Nat} (hm : y.memAddr w v) :
    x.memAddr w v := by
  obtain ⟨hw, h1, h2⟩ := (containsNet_iff hx hy).mp h
  obtain ⟨hww, h3, h4⟩ := hm
  exact ⟨hw.trans hww, le_trans h1 h3, le_trans h4 h2⟩

theorem memAddr_self_ip {n : IPNet} (h : Wf n) : n.memAddr n.width n.ip :=
  ⟨rfl, le_refl _, ip_le_broadcastAddr h⟩

theorem containsNet_refl {n : IPNet} (h : Wf n) : n.ContainsNet n = true := by
  rw [containsNet_iff h h]
  exact ⟨rfl, le_refl _, le_refl _⟩

theorem contains_of_shared_le {n m : IPNet} (hn : Wf n) (hm : Wf m)
    {w v : Nat} (h1 : n.memAddr w v) (h2 : m.memAddr w v)
    (hst : m.hostBits ≤ n.hostBits) : n.ContainsNet m = true := by
  have hw : n.width = m.width := h1.1.trans h2.1.symm
  obtain ⟨_, ha1, ha2⟩ := h1
  obtain ⟨_, hb1, hb2⟩ := h2
  rw [broadcastAddr_eq hn] at ha2
  rw [broadcastAddr_eq hm] at hb2
  have hspos := Nat.two_pow_pos n.hostBits
  have htpos := Nat.two_pow_pos m.hostBits
  have hdn : 2 ^ m.hostBits ∣ n.ip :=
    dvd_trans (pow_dvd_pow 2 hst) hn.2.2.2
  rw [containsNet_iff hn hm, broadcastAddr_eq hn, broadcastAddr_eq hm]
  have hnm : n.ip ≤ m.ip := by
    by_contra hc
    have := add_of_dvd_lt hm.2.2.2 hdn (by omega)
    omega
  refine ⟨hw, hnm, ?_⟩
  have hdd : 2 ^ m.hostBits ∣ n.ip + 2 ^ n.hostBits :=
    Nat.dvd_add hdn (pow_dvd_pow 2 hst)
  have := add_of_dvd_lt hm.2.2.2 hdd (by omega)
  omega

theorem overlap_containsNet {n m : IPNet} (hn : Wf n) (hm : Wf m)
    {w v : Nat} (h1 : n.memAddr w v) (h2 : m.memAddr w v) :
    n.ContainsNet m = true ∨ m.ContainsNet n = true := by
  rcases le_or_lt m.hostBits n.hostBits with hst | hst
  · exact Or.inl (contains_of_shared_le hn hm h1 h2 hst)
  · exact Or.inr (contains_of_shared_le hm hn h2 h1 (le_of_lt hst))

/-- One step of the strict case of `Difference`: the result is the half
not containing `m` consed onto the difference of the half containing `m`;
that chosen half still contains `m`, the two halves partition `n`, and the
only canonical network combinable with the emitted half is the chosen
half itself. -/
theorem diff_strict_step (fuel : Nat) {n m : IPNet} (hn : Wf n) (hm : Wf m)
    (h1 : m.ContainsNet n = false) (h2 : n.ContainsNet m = true) :
    ∃ e c : IPNet,
      diffRun (fuel + 1) n m = e :: diffRun fuel c m ∧
      Wf e ∧ Wf c ∧ e.width = n.width ∧ c.width = n.width ∧
      e.ones = n.ones + 1 ∧ c.ones = n.ones + 1 ∧
      c.ContainsNet m = true ∧
      (∀ w v, n.memAddr w v ↔ (e.memAddr w v ∨ c.memAddr w v)) ∧
      (∀ w v, ¬ (e.memAddr w v ∧ c.memAddr w v)) ∧
      (∀ y : IPNet, Wf y → (e.CanCombineWith y).1 = true → y = c) := by
  obtain ⟨hw, hle1, hle2⟩ := (containsNet_iff hn hm).mp h2
  have hbits := bits_eq_of_width_eq hw
  rw [broadcastAddr_eq hn, broadcastAddr_eq hm] at hle2
  have hspos := Nat.two_pow_pos n.hostBits
  have htpos := Nat.two_pow_pos m.hostBits
  have hts : m.hostBits ≤ n.hostBits := by
    by_contra hc
    have hpow : 2 ^ n.hostBits < 2 ^ m.hostBits :=
      Nat.pow_lt_pow_right (by norm_num) (by omega)
    omega
  have hts2 : m.hostBits < n.hostBits := by
    rcases Nat.lt_or_ge m.hostBits n.hostBits with h | h
    · exact h
    · exfalso
      have heq : m.hostBits = n.hostBits := by omega
      have hips : m.ip = n.ip := by
        rw [heq] at hle2
        omega
      have : m.ContainsNet n = true := by
        rw [containsNet_iff hm hn, broadcastAddr_eq hn, broadcastAddr_eq hm,
          heq, hips]
        exact ⟨hw.symm, le_refl _, le_refl _⟩
      rw [this] at h1
      exact absurd h1 (by simp)
  have hs1 : 1 ≤ n.hostBits := by omega
  have hlt : n.ones < n.bits := by
    unfold IPNet.hostBits at hs1
    omega
  have hsplit : 2 ^ n.hostBits = 2 ^ (n.hostBits - 1) + 2 ^ (n.hostBits - 1) := by
    have he : n.hostBits - 1 + 1 = n.hostBits := by omega
    calc 2 ^ n.hostBits = 2 ^ (n.hostBits - 1 + 1) := by rw [he]
      _ = 2 ^ (n.hostBits - 1) * 2 := Nat.pow_succ ..
      _ = 2 ^ (n.hostBits - 1) + 2 ^ (n.hostBits - 1) := by ring
  have hwfF := wf_half_fst hn hlt
  have hwfS := wf_half_snd hn hlt
  have hfS : (⟨n.width, n.ones + 1, n.ip⟩ : IPNet).hostBits
      = n.hostBits - 1 := by
    show 8 * n.width - (n.ones + 1) = n.hostBits - 1
    unfold IPNet.hostBits IPNet.bits
    omega
  have hsdS : (⟨n.width, n.ones + 1, n.ip + 2 ^ (n.hostBits - 1)⟩ : IPNet).hostBits
      = n.hostBits - 1 := hfS
  have hFip : (⟨n.width, n.ones + 1, n.ip⟩ : IPNet).ip = n.ip := rfl
  have hSip : (⟨n.width, n.ones + 1, n.ip + 2 ^ (n.hostBits - 1)⟩ : IPNet).ip
      = n.ip + 2 ^ (n.hostBits - 1) := rfl
  have hdm2 : 2 ^ m.hostBits ∣ 2 ^ (n.hostBits - 1) := pow_dvd_pow 2 (by omega)
  have hdnm : 2 ^ m.hostBits ∣ n.ip := dvd_trans (pow_dvd_pow 2 hts) hn.2.2.2
  have hnotdvd : ¬ 2 ^ n.hostBits ∣ n.ip + 2 ^ (n.hostBits - 1) := by
    intro hc
    have hd2 : 2 ^ n.hostBits ∣ 2 ^ (n.hostBits - 1) :=
      (Nat.dvd_add_right hn.2.2.2).mp hc
    have := Nat.le_of_dvd (Nat.two_pow_pos _) hd2
    have hpow2 : 2 ^ (n.hostBits - 1) < 2 ^ n.hostBits :=
      Nat.pow_lt_pow_right (by norm_num) (by omega)
    omega
  have hrun : diffRun (fuel + 1) n m =
      (if m.ip < n.ip + 2 ^ (n.hostBits - 1) then
        (⟨n.width, n.ones + 1, n.ip + 2 ^ (n.hostBits - 1)⟩ : IPNet) ::
          diffRun fuel ⟨n.width, n.ones + 1, n.ip⟩ m
      else (⟨n.width, n.ones + 1, n.ip⟩ : IPNet) ::
          diffRun fuel ⟨n.width, n.ones + 1, n.ip + 2 ^ (n.hostBits - 1)⟩ m) := by
    show (if n.width ≠ m.width then [n]
      else if m.ContainsNet n then []
      else if !(n.ContainsNet m) then [n]
      else match fuel + 1 with
        | 0 => []
        | fuel + 1 =>
          let p := n.DivideInHalf
          if m.ip < p.2.ip then p.2 :: diffRun fuel p.1 m
          else p.1 :: diffRun fuel p.2 m) = _
    rw [if_neg (by simp [hw]), if_neg (by simp [h1]), if_neg (by simp [h2])]
    simp only [divideInHalf_eq hn hlt]
  by_cases hchoice : m.ip < n.ip + 2 ^ (n.hostBits - 1)
  · refine ⟨⟨n.width, n.ones + 1, n.ip + 2 ^ (n.hostBits - 1)⟩,
      ⟨n.width, n.ones + 1, n.ip⟩, ?_, hwfS, hwfF, rfl, rfl, rfl, rfl,
      ?_, ?_, ?_, ?_⟩
    · rw [hrun, if_pos hchoice]
    · rw [containsNet_iff hwfF hm, broadcastAddr_eq hwfF,
        broadcastAddr_eq hm, hfS, hFip]
      refine ⟨hw, hle1, ?_⟩
      have hdd : 2 ^ m.hostBits ∣ n.ip + 2 ^ (n.hostBits - 1) :=
        Nat.dvd_add hdnm hdm2
      have := add_of_dvd_lt hm.2.2.2 hdd (by omega)
      omega
    · intro w v
      rw [memAddr_iff hn, memAddr_iff hwfF, memAddr_iff hwfS, hfS, hsdS,
        hFip, hSip]
      constructor
      · rintro ⟨hww, hv1, hv2⟩
        by_cases hv : v ≤ n.ip + (2 ^ (n.hostBits - 1) - 1)
        · exact Or.inr ⟨hww, hv1, hv⟩
        · exact Or.inl ⟨hww, by omega, by omega⟩
      · rintro (⟨hww, hv1, hv2⟩ | ⟨hww, hv1, hv2⟩)
        · exact ⟨hww, by omega, by omega⟩
        · exact ⟨hww, hv1, by omega⟩
    · intro w v
      rw [memAddr_iff hwfF, memAddr_iff hwfS, hfS, hsdS, hFip, hSip]
      rintro ⟨⟨_, hv1, hv2⟩, ⟨_, hv3, hv4⟩⟩
      omega
    · intro y hy hcomb
      obtain ⟨hyw, hyo, _, hycase⟩ := canCombineWith_cases hwfS hy hcomb
      rcases hycase with ⟨hyip, hyal⟩ | ⟨hyip, hyal⟩
      · exfalso
        apply hnotdvd
        have he2 : (⟨n.width, n.ones + 1,
            n.ip + 2 ^ (n.hostBits - 1)⟩ : IPNet).hostBits + 1
            = n.hostBits := by
          rw [hsdS]
          omega
        rw [he2] at hyal
        exact hyal
      · refine ipnet_ext ?_ ?_ ?_
        · exact hyw.symm
        · exact hyo.symm
        · rw [hsdS, hSip] at hyip
          show y.ip = n.ip
          omega
  · refine ⟨⟨n.width, n.ones + 1, n.ip⟩,
      ⟨n.width, n.ones + 1, n.ip + 2 ^ (n.hostBits - 1)⟩, ?_, hwfF, hwfS,
      rfl, rfl, rfl, rfl, ?_, ?_, ?_, ?_⟩
    · rw [hrun, if_neg hchoice]
    · rw [containsNet_iff hwfS hm, broadcastAddr_eq hwfS,
        broadcastAddr_eq hm, hsdS, hSip]
      exact ⟨hw, by omega, by omega⟩
    · intro w v
      rw [memAddr_iff hn, memAddr_iff hwfF, memAddr_iff hwfS, hfS, hsdS,
        hFip, hSip]
      constructor
      · rintro ⟨hww, hv1, hv2⟩
        by_cases hv : v ≤ n.ip + (2 ^ (n.hostBits - 1) - 1)
        · exact Or.inl ⟨hww, hv1, hv⟩
        · exact Or.inr ⟨hww, by omega, by omega⟩
      · rintro (⟨hww, hv1, hv2⟩ | ⟨hww, hv1, hv2⟩)
        · exact ⟨hww, hv1, by omega⟩
        · exact ⟨hww, by omega, by omega⟩
    · intro w v
      rw [memAddr_iff hwfF, memAddr_iff hwfS, hfS, hsdS, hFip, hSip]
      rintro ⟨⟨_, hv1, hv2⟩, ⟨_, hv3, hv4⟩⟩
      omega
    · intro y hy hcomb
      obtain ⟨hyw, hyo, _, hycase⟩ := canCombineWith_cases hwfF hy hcomb
      rcases hycase with ⟨hyip, hyal⟩ | ⟨hyip, hyal⟩
      · refine ipnet_ext ?_ ?_ ?_
        · exact hyw.symm
        · exact hyo.symm
        · rw [hfS, hFip] at hyip
          show y.ip = n.ip + 2 ^ (n.hostBits - 1)
          omega
      · exfalso
        apply hnotdvd
        have he2 : (⟨n.width, n.ones + 1, n.ip⟩ : IPNet).hostBits + 1
            = n.hostBits := by
          rw [hfS]
          omega
        rw [he2] at hyal
        rw [hfS, hFip] at hyip
        have heq2 : n.ip + 2 ^ (n.hostBits - 1) = y.ip + 2 ^ n.hostBits := by
          omega
        rw [heq2]
        exact Nat.dvd_add hyal dvd_rfl

theorem diffRun_width_ne {fuel : Nat} {n m : IPNet} (hw : n.width ≠ m.width) :
    diffRun fuel n m = [n] := by
  unfold diffRun
  rw [if_pos hw]

theorem diffRun_contained {fuel : Nat} {n m : IPNet}
    (hw : n.width = m.width) (h : m.ContainsNet n = true) :
    diffRun fuel n m = [] := by
  unfold diffRun
  rw [if_neg (by simp [hw]), if_pos h]

theorem diffRun_no_overlap {fuel : Nat} {n m : IPNet}
    (hw : n.width = m.width) (h1 : m.ContainsNet n = false)
    (h2 : n.ContainsNet m = false) : diffRun fuel n m = [n] := by
  unfold diffRun
  rw [if_neg (by simp [hw]), if_neg (by simp [h1]), if_pos (by simp [h2])]

theorem strict_hostBits_pos {n m : IPNet} (hn : Wf n) (hm : Wf m)
    (h1 : m.ContainsNet n = false) (h2 : n.ContainsNet m = true) :
    m.hostBits < n.hostBits := by
  obtain ⟨hw, hle1, hle2⟩ := (containsNet_iff hn hm).mp h2
  rw [broadcastAddr_eq hn, broadcastAddr_eq hm] at hle2
  have hspos := Nat.two_pow_pos n.hostBits
  have htpos := Nat.two_pow_pos m.hostBits
  have hts : m.hostBits ≤ n.hostBits := by
    by_contra hc
    have hpow : 2 ^ n.hostBits < 2 ^ m.hostBits :=
      Nat.pow_lt_pow_right (by norm_num) (by omega)
    omega
  rcases Nat.lt_or_ge m.hostBits n.hostBits with h | h
  · exact h
  · exfalso
    have heq : m.hostBits = n.hostBits := by omega
    have hips : m.ip = n.ip := by
      rw [heq] at hle2
      omega
    have hcn : m.ContainsNet n = true := by
      rw [containsNet_iff hm hn, broadcastAddr_eq hn, broadcastAddr_eq hm,
        heq, hips]
      exact ⟨hw.symm, le_refl _, le_refl _⟩
    rw [hcn] at h1
    exact absurd h1 (by simp)

/-- The full behaviour of the difference recursion: canonical pieces lying
inside `n`, together covering exactly `n` minus `m`, pairwise disjoint,
emitted with strictly growing prefix length (strictly shrinking size), and
— for proper pieces — only combinable with partners lying inside `n`. -/
theorem diffRun_main (fuel : Nat) : ∀ {n m : IPNet}, Wf n → Wf m →
    n.hostBits ≤ fuel →
    (∀ x ∈ diffRun fuel n m, Wf x ∧ x.width = n.width ∧
      (∀ w v, x.memAddr w v → n.memAddr w v)) ∧
    (∀ w v, (∃ x ∈ diffRun fuel n m, x.memAddr w v) ↔
      (n.memAddr w v ∧ ¬ m.memAddr w v)) ∧
    (diffRun fuel n m).Chain' (fun x y => x.ones < y.ones) ∧
    (m.ContainsNet n = false → n.ContainsNet m = true →
      ∀ x ∈ diffRun fuel n m, n.ones < x.ones) ∧
    (∀ x ∈ diffRun fuel n m, x ≠ n →
      ∀ y : IPNet, Wf y → (x.CanCombineWith y).1 = true →
        (∀ w v, y.memAddr w v → n.memAddr w v)) ∧
    (diffRun fuel n m).Pairwise
      (fun x y => ∀ w v, ¬ (x.memAddr w v ∧ y.memAddr w v)) := by
  induction fuel with
  | zero =>
    intro n m hn hm hfuel
    by_cases hmn : m.ContainsNet n = true
    · have hw : n.width = m.width :=
        ((containsNet_iff hm hn).mp hmn).1.symm
      rw [diffRun_contained hw hmn]
      refine ⟨by simp, ?_, by simp, ?_, by simp, by simp⟩
      · intro w v
        simp only [List.not_mem_nil, false_and, exists_false]
        constructor
        · intro h
          exact absurd h (by simp)
        · rintro ⟨hin, hout⟩
          exact absurd (containsNet_mem hm hn hmn hin) hout
      · intro hc
        rw [hmn] at hc
        exact absurd hc (by simp)
    · have hmn2 : m.ContainsNet n = false := by
        simpa using hmn
      by_cases hnm : n.ContainsNet m = true
      · exfalso
        have := strict_hostBits_pos hn hm hmn2 hnm
        omega
      · have hnm2 : n.ContainsNet m = false := by simpa using hnm
        by_cases hw : n.width = m.width
        · rw [diffRun_no_overlap hw hmn2 hnm2]
          refine ⟨?_, ?_, by simp, ?_, ?_, by simp⟩
          · intro x hx
            rw [List.mem_singleton] at hx
            subst hx
            exact ⟨hn, rfl, fun w v h => h⟩
          · intro w v
            simp only [List.mem_singleton, exists_eq_left]
            constructor
            · intro h
              refine ⟨h, fun hmv => ?_⟩
              rcases overlap_containsNet hn hm h hmv with hc | hc
              · rw [hc] at hnm2
                exact absurd hnm2 (by simp)
              · rw [hc] at hmn2
                exact absurd hmn2 (by simp)
            · exact fun h => h.1
          · intro _ hc
            rw [hnm2] at hc
            exact absurd hc (by simp)
          · intro x hx hne
            rw [List.mem_singleton] at hx
            exact absurd hx hne
        · rw [diffRun_width_ne (by simpa using hw)]
          refine ⟨?_, ?_, by simp, ?_, ?_, by simp⟩
          · intro x hx
            rw [List.mem_singleton] at hx
            subst hx
            exact ⟨hn, rfl, fun w v h => h⟩
          · intro w v
            simp only [List.mem_singleton, exists_eq_left]
            constructor
            · intro h
              refine ⟨h, fun hmv => ?_⟩
              exact hw (h.1.trans hmv.1.symm)
            · exact fun h => h.1
          · intro _ hc
            have hwc := ((containsNet_iff hn hm).mp hc).1
            exact absurd hwc hw
          · intro x hx hne
            rw [List.mem_singleton] at hx
            exact absurd hx hne
  | succ fuel ih =>
    intro n m hn hm hfuel
    by_cases hmn : m.ContainsNet n = true
    · have hw : n.width = m.width :=
        ((containsNet_iff hm hn).mp hmn).1.symm
      rw [diffRun_contained hw hmn]
      refine ⟨by simp, ?_, by simp, ?_, by simp, by simp⟩
      · intro w v
        simp only [List.not_mem_nil, false_and, exists_false]
        constructor
        · intro h
          exact absurd h (by simp)
        · rintro ⟨hin, hout⟩
          exact absurd (containsNet_mem hm hn hmn hin) hout
      · intro hc
        rw [hmn] at hc
        exact absurd hc (by simp)
    · have hmn2 : m.ContainsNet n = false := by simpa using hmn
      by_cases hnm : n.ContainsNet m = true
      · -- the strict case
        obtain ⟨e, c, hrun, hwfE, hwfC, hew, hcw, heo, hco, hcc, hpart,
          hdisj, hpartner⟩ := diff_strict_step fuel hn hm hmn2 hnm
        have hstrict := strict_hostBits_pos hn hm hmn2 hnm
        have hcS : c.hostBits = n.hostBits - 1 := by
          unfold IPNet.hostBits IPNet.bits
          rw [hcw, hco]
          omega
        have hcfuel : c.hostBits ≤ fuel := by omega
        obtain ⟨ih1, ih2, ih3, ih4, ih5, ih6⟩ := ih hwfC hm hcfuel
        have hmemc : ∀ w v, m.memAddr w v → c.memAddr w v :=
          fun w v h => containsNet_mem hwfC hm hcc h
        have hrest : ∀ x ∈ diffRun fuel c m, c.ones ≤ x.ones ∧
            (diffRun fuel c m ≠ [] → True) := by
          intro x hx
          exact ⟨by
            by_cases hmc : m.ContainsNet c = true
            · rw [diffRun_contained (((containsNet_iff hwfC hm).mp hcc).1) hmc] at hx
              exact absurd hx (by simp)
            · exact le_of_lt (ih4 (by simpa using hmc) hcc x hx), fun _ => trivial⟩
        have hrest2 : ∀ x ∈ diffRun fuel c m, c.ones < x.ones := by
          intro x hx
          by_cases hmc : m.ContainsNet c = true
          · rw [diffRun_contained (((containsNet_iff hwfC hm).mp hcc).1) hmc] at hx
            exact absurd hx (by simp)
          · exact ih4 (by simpa using hmc) hcc x hx
        rw [hrun]
        refine ⟨?_, ?_, ?_, ?_, ?_, ?_⟩
        · intro x hx
          rcases List.mem_cons.mp hx with hx | hx
          · subst hx
            exact ⟨hwfE, hew, fun w v h => (hpart w v).mpr (Or.inl h)⟩
          · obtain ⟨hxwf, hxw, hxmem⟩ := ih1 x hx
            exact ⟨hxwf, hxw.trans hcw, fun w v h =>
              (hpart w v).mpr (Or.inr (hxmem w v h))⟩
        · intro w v
          constructor
          · rintro ⟨x, hx, hxm⟩
            rcases List.mem_cons.mp hx with hx | hx
            · subst hx
              refine ⟨(hpart w v).mpr (Or.inl hxm), fun hmv => ?_⟩
              exact hdisj w v ⟨hxm, hmemc w v hmv⟩
            · have := (ih2 w v).mp ⟨x, hx, hxm⟩
              exact ⟨(hpart w v).mpr (Or.inr this.1), this.2⟩
          · rintro ⟨hnv, hmv⟩
            rcases (hpart w v).mp hnv with he | hc2
            · exact ⟨e, List.mem_cons_self .., he⟩
            · obtain ⟨x, hx, hxm⟩ := (ih2 w v).mpr ⟨hc2, hmv⟩
              exact ⟨x, List.mem_cons_of_mem _ hx, hxm⟩
        · rw [List.chain'_cons']
          refine ⟨?_, ih3⟩
          intro y hy
          have hy2 := List.mem_of_mem_head? hy
          have := hrest2 y hy2
          rw [heo]
          omega
        · intro _ _ x hx
          rcases List.mem_cons.mp hx with hx | hx
          · subst hx
            rw [heo]
            omega
          · have := hrest2 x hx
            rw [hco] at this
            omega
        · intro x hx hne y hy hcomb
          rcases List.mem_cons.mp hx with hx | hx
          · subst hx
            have hyc := hpartner y hy hcomb
            subst hyc
            intro w v h
            exact (hpart w v).mpr (Or.inr h)
          · have hxc : x ≠ c := by
              intro he2
              subst he2
              have := hrest2 x hx
              omega
            intro w v h
            exact (hpart w v).mpr
              (Or.inr (ih5 x hx hxc y hy hcomb w v h))
        · rw [List.pairwise_cons]
          refine ⟨?_, ih6⟩
          intro x hx w v ⟨h1, h2⟩
          obtain ⟨_, _, hxmem⟩ := ih1 x hx
          exact hdisj w v ⟨h1, hxmem w v h2⟩
      · have hnm2 : n.ContainsNet m = false := by simpa using hnm
        by_cases hw : n.width = m.width
        · rw [diffRun_no_overlap hw hmn2 hnm2]
          refine ⟨?_, ?_, by simp, ?_, ?_, by simp⟩
          · intro x hx
            rw [List.mem_singleton] at hx
            subst hx
            exact ⟨hn, rfl, fun w v h => h⟩
          · intro w v
            simp only [List.mem_singleton, exists_eq_left]
            constructor
            · intro h
              refine ⟨h, fun hmv => ?_⟩
              rcases overlap_containsNet hn hm h hmv with hc | hc
              · rw [hc] at hnm2
                exact absurd hnm2 (by simp)
              · rw [hc] at hmn2
                exact absurd hmn2 (by simp)
            · exact fun h => h.1
          · intro _ hc
            rw [hnm2] at hc
            exact absurd hc (by simp)
          · intro x hx hne
            rw [List.mem_singleton] at hx
            exact absurd hx hne
        · rw [diffRun_width_ne (by simpa using hw)]
          refine ⟨?_, ?_, by simp, ?_, ?_, by simp⟩
          · intro x hx
            rw [List.mem_singleton] at hx
            subst hx
            exact ⟨hn, rfl, fun w v h => h⟩
          · intro w v
            simp only [List.mem_singleton, exists_eq_left]
            constructor
            · intro h
              refine ⟨h, fun hmv => ?_⟩
              exact hw (h.1.trans hmv.1.symm)
            · exact fun h => h.1
          · intro _ hc
            have hwc := ((containsNet_iff hn hm).mp hc).1
            exact absurd hwc hw
          · intro x hx hne
            rw [List.mem_singleton] at hx
            exact absurd hx hne

/-! ## Claim C4: the Difference algorithm -/

/-- C4: for same-width canonical networks, `Difference` returns `[]` when
`b` contains `a`; otherwise `[a]` when `a` does not contain `b`; otherwise
(`a` strictly contains `b`) disjoint canonical pieces covering exactly
`a` minus `b`, emitted from largest block to smallest (not address
order); with the two concrete examples from the spec. -/
theorem difference_spec {a b : IPNet} (ha : Wf a) (hb : Wf b)
    (hw : a.width = b.width) :
    (b.ContainsNet a = true → a.Difference b = []) ∧
    (b.ContainsNet a = false → a.ContainsNet b = false →
      a.Difference b = [a]) ∧
    (b.ContainsNet a = false → a.ContainsNet b = true →
      (∀ x ∈ a.Difference b, Wf x ∧
        (∀ w v, x.memAddr w v → a.memAddr w v)) ∧
      (∀ w v, (∃ x ∈ a.Difference b, x.memAddr w v) ↔
        (a.memAddr w v ∧ ¬ b.memAddr w v)) ∧
      (a.Difference b).Pairwise
        (fun x y => ∀ w v, ¬ (x.memAddr w v ∧ y.memAddr w v)) ∧
      (a.Difference b).Chain' (fun x y => y.Size < x.Size)) ∧
    ((⟨4, 24, 167772160⟩ : IPNet).Difference ⟨4, 25, 167772288⟩ =
      [⟨4, 25, 167772160⟩]) ∧
    ((⟨4, 24, 167772160⟩ : IPNet).Difference ⟨4, 29, 167772280⟩ =
      [⟨4, 25, 167772288⟩, ⟨4, 26, 167772160⟩, ⟨4, 27, 167772224⟩,
       ⟨4, 28, 167772256⟩, ⟨4, 29, 167772272⟩]) := by
  have hf : a.hostBits ≤ 8 * a.width := hostBits_le_bits a
  refine ⟨?_, ?_, ?_, by decide, by decide⟩
  · intro h
    exact diffRun_contained hw h
  · intro h1 h2
    exact diffRun_no_overlap hw h1 h2
  · intro h1 h2
    rw [show a.Difference b = diffRun (8 * a.width) a b from rfl]
    obtain ⟨p1, p2, p3, _, _, p6⟩ := diffRun_main (8 * a.width) ha hb hf
    refine ⟨fun x hx => ⟨(p1 x hx).1, (p1 x hx).2.2⟩, p2, p6, ?_⟩
    rw [List.chain'_iff_get] at p3 ⊢
    intro i hi
    have hlt := p3 i hi
    obtain ⟨hxwf, hxw, _⟩ :=
      p1 _ (List.get_mem (diffRun (8 * a.width) a b) i _)
    obtain ⟨hywf, hyw, _⟩ :=
      p1 _ (List.get_mem (diffRun (8 * a.width) a b) (i + 1) _)
    show ((diffRun (8 * a.width) a b).get ⟨i + 1, _⟩).Size <
      ((diffRun (8 * a.width) a b).get ⟨i, _⟩).Size
    unfold IPNet.Size IPNet.hostBits IPNet.bits
    rw [hxw, hyw]
    apply Nat.pow_lt_pow_right (by norm_num)
    have hyb := hywf.2.1
    unfold IPNet.bits at hyb
    rw [hyw] at hyb
    omega

theorem difference_spec_witness :
    Wf ⟨4, 24, 167772160⟩ ∧ Wf ⟨4, 29, 167772280⟩ ∧
    (⟨4, 24, 167772160⟩ : IPNet).width = (⟨4, 29, 167772280⟩ : IPNet).width ∧
    (((⟨4, 29, 167772280⟩ : IPNet).ContainsNet ⟨4, 24, 167772160⟩ = true →
        (⟨4, 24, 167772160⟩ : IPNet).Difference ⟨4, 29, 167772280⟩ = []) ∧
     ((⟨4, 29, 167772280⟩ : IPNet).ContainsNet ⟨4, 24, 167772160⟩ = false →
      (⟨4, 24, 167772160⟩ : IPNet).ContainsNet ⟨4, 29, 167772280⟩ = false →
        (⟨4, 24, 167772160⟩ : IPNet).Difference ⟨4, 29, 167772280⟩ =
          [⟨4, 24, 167772160⟩]) ∧
     ((⟨4, 29, 167772280⟩ : IPNet).ContainsNet ⟨4, 24, 167772160⟩ = false →
      (⟨4, 24, 167772160⟩ : IPNet).ContainsNet ⟨4, 29, 167772280⟩ = true →
      (∀ x ∈ (⟨4, 24, 167772160⟩ : IPNet).Difference ⟨4, 29, 167772280⟩,
        Wf x ∧ (∀ w v, x.memAddr w v →
          (⟨4, 24, 167772160⟩ : IPNet).memAddr w v)) ∧
      (∀ w v, (∃ x ∈ (⟨4, 24, 167772160⟩ : IPNet).Difference
          ⟨4, 29, 167772280⟩, x.memAddr w v) ↔
        ((⟨4, 24, 167772160⟩ : IPNet).memAddr w v ∧
          ¬ (⟨4, 29, 167772280⟩ : IPNet).memAddr w v)) ∧
      ((⟨4, 24, 167772160⟩ : IPNet).Difference ⟨4, 29, 167772280⟩).Pairwise
        (fun x y => ∀ w v, ¬ (x.memAddr w v ∧ y.memAddr w v)) ∧
      ((⟨4, 24, 167772160⟩ : IPNet).Difference ⟨4, 29, 167772280⟩).Chain'
        (fun x y => y.Size < x.Size)) ∧
     ((⟨4, 24, 167772160⟩ : IPNet).Difference ⟨4, 25, 167772288⟩ =
       [⟨4, 25, 167772160⟩]) ∧
     ((⟨4, 24, 167772160⟩ : IPNet).Difference ⟨4, 29, 167772280⟩ =
       [⟨4, 25, 167772288⟩, ⟨4, 26, 167772160⟩, ⟨4, 27, 167772224⟩,
        ⟨4, 28, 167772256⟩, ⟨4, 29, 167772272⟩])) :=
  ⟨by decide, by decide, by decide,
    difference_spec (by decide) (by decide) (by decide)⟩

/-! ## Sorted-list infrastructure for the modelled tree -/

theorem keyLtP_of_keyLt {x y : IPNet} (h : keyLt x y = true) :
    x.width < y.width ∨ (x.width = y.width ∧ x.ip < y.ip) := by
  unfold keyLt at h
  simp only [Bool.or_eq_true, Bool.and_eq_true, decide_eq_true_eq,
    beq_iff_eq] at h
  exact h

theorem keyLt_of_keyLtP {x y : IPNet}
    (h : x.width < y.width ∨ (x.width = y.width ∧ x.ip < y.ip)) :
    keyLt x y = true := by
  unfold keyLt
  simp only [Bool.or_eq_true, Bool.and_eq_true, decide_eq_true_eq,
    beq_iff_eq]
  exact h

theorem before_keyLt {x y : IPNet} (hx : Wf x) (h : before x y) :
    keyLt x y = true := by
  apply keyLt_of_keyLtP
  rcases h with h | ⟨hw, hb⟩
  · exact Or.inl h
  · exact Or.inr ⟨hw, lt_of_le_of_lt (ip_le_broadcastAddr hx) hb⟩

theorem before_irrefl {x : IPNet} (hx : Wf x) : ¬ before x x := by
  rintro (h | ⟨_, h⟩)
  · omega
  · have := ip_le_broadcastAddr hx
    omega

theorem before_asymm {x y : IPNet} (hx : Wf x) (hy : Wf y)
    (h1 : before x y) (h2 : before y x) : False := by
  have k1 := keyLtP_of_keyLt (before_keyLt hx h1)
  have k2 := keyLtP_of_keyLt (before_keyLt hy h2)
  rcases k1 with k1 | ⟨kw1, k1⟩ <;> rcases k2 with k2 | ⟨kw2, k2⟩ <;> omega

theorem before_no_share {x y : IPNet} (h : before x y) {w v : Nat}
    (h1 : x.memAddr w v) (h2 : y.memAddr w v) : False := by
  obtain ⟨hw1, ha1, hb1⟩ := h1
  obtain ⟨hw2, ha2, hb2⟩ := h2
  rcases h with h | ⟨hw, hb⟩
  · omega
  · omega

theorem pairwise_before_disjoint {s : IPSet} (hs : s.Pairwise before)
    {x y : IPNet} (hx : x ∈ s) (hy : y ∈ s) (hne : x ≠ y) {w v : Nat}
    (h1 : x.memAddr w v) (h2 : y.memAddr w v) : False := by
  have hsym : Symmetric (fun a b : IPNet => before a b ∨ before b a) := by
    intro a b h
    tauto
  have := (hs.imp (fun h => Or.inl h)).forall hsym hx hy hne
  rcases this with h | h
  · exact before_no_share h h1 h2
  · exact before_no_share h h2 h1

theorem disjoint_before {x y : IPNet} (hx : Wf x) (hy : Wf y)
    (h : ∀ w v, ¬ (x.memAddr w v ∧ y.memAddr w v)) :
    before x y ∨ before y x := by
  rcases Nat.lt_trichotomy x.width y.width with hw | hw | hw
  · exact Or.inl (Or.inl hw)
  · by_cases hb : x.BroadcastAddr < y.ip
    · exact Or.inl (Or.inr ⟨hw, hb⟩)
    · by_cases hb2 : y.BroadcastAddr < x.ip
      · exact Or.inr (Or.inr ⟨hw.symm, hb2⟩)
      · exfalso
        have hix := ip_le_broadcastAddr hx
        have hiy := ip_le_broadcastAddr hy
        rcases Nat.le_total x.ip y.ip with hle | hle
        · exact h y.width y.ip ⟨⟨hw, hle, by omega⟩, memAddr_self_ip hy⟩
        · exact h x.width x.ip ⟨memAddr_self_ip hx, ⟨hw.symm, hle, by omega⟩⟩
  · exact Or.inr (Or.inl hw)

theorem insertPos_mem {x y : IPNet} {l : List IPNet} :
    y ∈ insertPos x l ↔ (y = x ∨ y ∈ l) := by
  induction l with
  | nil => simp [insertPos]
  | cons z l ihl =>
    unfold insertPos
    by_cases hk : keyLt x z = true
    · rw [if_pos hk]
      simp [List.mem_cons]
    · rw [if_neg hk]
      simp only [List.mem_cons, ihl]
      tauto

theorem insertPos_pairwise_before {x : IPNet} {l : List IPNet}
    (hx : Wf x) (hl : l.Pairwise before) (hwl : ∀ z ∈ l, Wf z)
    (hcomp : ∀ z ∈ l, before x z ∨ before z x) :
    (insertPos x l).Pairwise before := by
  induction l with
  | nil => simp [insertPos, List.Pairwise.nil]
  | cons y l ihl =>
    rw [List.pairwise_cons] at hl
    unfold insertPos
    by_cases hk : keyLt x y = true
    · rw [if_pos hk]
      rw [List.pairwise_cons]
      refine ⟨?_, List.pairwise_cons.mpr hl⟩
      intro z hz
      have hwy := hwl y (List.mem_cons_self ..)
      rcases List.mem_cons.mp hz with rfl | hz
      · rcases hcomp z (List.mem_cons_self ..) with h | h
        · exact h
        · exfalso
          have := keyLtP_of_keyLt (before_keyLt hwy h)
          have := keyLtP_of_keyLt hk
          rcases ‹z.width < x.width ∨ (z.width = x.width ∧ z.ip < x.ip)›
            with h1 | ⟨h1w, h1⟩ <;>
          rcases ‹x.width < z.width ∨ (x.width = z.width ∧ x.ip < z.ip)›
            with h2 | ⟨h2w, h2⟩ <;> omega
      · rcases hcomp z (List.mem_cons_of_mem _ hz) with h | h
        · exact h
        · exfalso
          have hwz := hwl z (List.mem_cons_of_mem _ hz)
          have k1 := keyLtP_of_keyLt (before_keyLt hwz h)
          have k2 := keyLtP_of_keyLt hk
          have k3 := keyLtP_of_keyLt (before_keyLt hwy (hl.1 z hz))
          rcases k1 with k1 | ⟨k1w, k1⟩ <;> rcases k2 with k2 | ⟨k2w, k2⟩ <;>
            rcases k3 with k3 | ⟨k3w, k3⟩ <;> omega
    · rw [if_neg hk]
      rw [List.pairwise_cons]
      have hwy := hwl y (List.mem_cons_self ..)
      refine ⟨?_, ihl hl.2 (fun z hz => hwl z (List.mem_cons_of_mem _ hz))
        (fun z hz => hcomp z (List.mem_cons_of_mem _ hz))⟩
      intro z hz
      rcases insertPos_mem.mp hz with rfl | hz
      · rcases hcomp y (List.mem_cons_self ..) with h | h
        · exact absurd (before_keyLt hx h) hk
        · exact h
      · exact hl.1 z hz

theorem head_of_min {l : List IPNet} (hl : l.Pairwise before)
    (hwl : ∀ z ∈ l, Wf z) {z : IPNet} (hz : z ∈ l)
    (hmin : ∀ y ∈ l, y ≠ z → before z y) : l.head? = some z := by
  cases l with
  | nil => exact absurd hz (by simp)
  | cons w l =>
    rw [List.pairwise_cons] at hl
    by_cases hwz : w = z
    · rw [hwz]
      rfl
    · exfalso
      have h1 := hmin w (List.mem_cons_self ..) hwz
      rcases List.mem_cons.mp hz with rfl | hz2
      · exact absurd rfl hwz
      · exact before_asymm (hwl z hz) (hwl w (List.mem_cons_self ..))
          h1 (hl.1 z hz2)

theorem last_of_max {l : List IPNet} (hl : l.Pairwise before)
    (hwl : ∀ z ∈ l, Wf z) {z : IPNet} (hz : z ∈ l)
    (hmax : ∀ y ∈ l, y ≠ z → before y z) : l.getLast? = some z := by
  induction l with
  | nil => exact absurd hz (by simp)
  | cons w l ihl =>
    rw [List.pairwise_cons] at hl
    cases l with
    | nil =>
      rcases List.mem_cons.mp hz with rfl | hz2
      · rfl
      · exact absurd hz2 (by simp)
    | cons w2 l2 =>
      rw [List.getLast?_cons_cons]
      have hz2 : z ∈ w2 :: l2 := by
        rcases List.mem_cons.mp hz with rfl | hz2
        · exfalso
          have hmem : w2 ∈ z :: w2 :: l2 := by simp
          by_cases hw2z : w2 = z
          · subst hw2z
            exact before_irrefl (hwl w2 (by simp))
              (hl.1 w2 (List.mem_cons_self ..))
          · exact before_asymm (hwl w2 (by simp)) (hwl z (by simp))
              (hmax w2 hmem hw2z) (hl.1 w2 (List.mem_cons_self ..))
        · exact hz2
      exact ihl hl.2 (fun y hy => hwl y (List.mem_cons_of_mem _ hy)) hz2
        (fun y hy hne => hmax y (List.mem_cons_of_mem _ hy) hne)

theorem combinable_unique {x y z : IPNet} (hx : Wf x) (hy : Wf y) (hz : Wf z)
    (h1 : (x.CanCombineWith y).1 = true) (h2 : (x.CanCombineWith z).1 = true) :
    y = z := by
  obtain ⟨hw1, ho1, _, hc1⟩ := canCombineWith_cases hx hy h1
  obtain ⟨hw2, ho2, _, hc2⟩ := canCombineWith_cases hx hz h2
  have hps : 2 ^ (x.hostBits + 1) = 2 ^ x.hostBits * 2 := Nat.pow_succ ..
  have hsp := Nat.two_pow_pos x.hostBits
  refine ipnet_ext (hw1.symm.trans hw2) (ho1.symm.trans ho2) ?_
  rcases hc1 with ⟨hi1, hd1⟩ | ⟨hi1, hd1⟩ <;>
    rcases hc2 with ⟨hi2, hd2⟩ | ⟨hi2, hd2⟩
  · omega
  · exfalso
    obtain ⟨k1, hk1⟩ := hd1
    obtain ⟨k2, hk2⟩ := hd2
    have heq : 2 ^ (x.hostBits + 1) * k1 =
        2 ^ (x.hostBits + 1) * k2 + 2 ^ x.hostBits := by omega
    have hk12 : k2 < k1 := by
      by_contra hcn
      have := Nat.mul_le_mul_left (2 ^ (x.hostBits + 1)) (by omega : k1 ≤ k2)
      omega
    have hmul : 2 ^ (x.hostBits + 1) * (k2 + 1) ≤ 2 ^ (x.hostBits + 1) * k1 :=
      Nat.mul_le_mul_left _ hk12
    have hring : 2 ^ (x.hostBits + 1) * (k2 + 1) =
        2 ^ (x.hostBits + 1) * k2 + 2 ^ (x.hostBits + 1) := by ring
    omega
  · exfalso
    obtain ⟨k1, hk1⟩ := hd1
    obtain ⟨k2, hk2⟩ := hd2
    have heq : 2 ^ (x.hostBits + 1) * k2 =
        2 ^ (x.hostBits + 1) * k1 + 2 ^ x.hostBits := by omega
    have hk12 : k1 < k2 := by
      by_contra hcn
      have := Nat.mul_le_mul_left (2 ^ (x.hostBits + 1)) (by omega : k2 ≤ k1)
      omega
    have hmul : 2 ^ (x.hostBits + 1) * (k1 + 1) ≤ 2 ^ (x.hostBits + 1) * k2 :=
      Nat.mul_le_mul_left _ hk12
    have hring : 2 ^ (x.hostBits + 1) * (k1 + 1) =
        2 ^ (x.hostBits + 1) * k1 + 2 ^ (x.hostBits + 1) := by ring
    omega
  · omega

theorem pairwise_before_total {t : IPSet} (hpb : t.Pairwise before)
    {x y : IPNet} (hx : x ∈ t) (hy : y ∈ t) (hne : x ≠ y) :
    before x y ∨ before y x := by
  have hsym : Symmetric (fun a b : IPNet => before a b ∨ before b a) := by
    intro a b h
    exact h.symm
  exact (hpb.imp (fun h => Or.inl h)).forall hsym hx hy hne

theorem containsNet_of_mem_subset {x c : IPNet} (hx : Wf x) (hc : Wf c)
    (h : ∀ w v, x.memAddr w v → c.memAddr w v) : c.ContainsNet x = true := by
  have h1 := h x.width x.ip (memAddr_self_ip hx)
  have h2 := h x.width x.BroadcastAddr ⟨rfl, ip_le_broadcastAddr hx, le_refl _⟩
  rw [containsNet_iff hc hx]
  exact ⟨h1.1, h1.2.1, h2.2.2⟩

theorem combinable_adjacent {x z : IPNet} (hx : Wf x) (hz : Wf z)
    (h : (x.CanCombineWith z).1 = true) :
    x.width = z.width ∧
      (z.ip = x.BroadcastAddr + 1 ∨ x.ip = z.BroadcastAddr + 1) := by
  obtain ⟨hw, ho, h1, hcase⟩ := canCombineWith_cases hx hz h
  have hsz : z.hostBits = x.hostBits := (hostBits_eq_of hw ho).symm
  rw [broadcastAddr_eq hx, broadcastAddr_eq hz, hsz]
  have := Nat.two_pow_pos x.hostBits
  rcases hcase with ⟨hi, _⟩ | ⟨hi, _⟩
  · exact ⟨hw, Or.inl (by omega)⟩
  · exact ⟨hw, Or.inr (by omega)⟩

/-- In a sorted list of disjoint canonical networks, a combinable partner
of a stored node can only be its immediate predecessor or successor. -/
theorem combinable_neighbor {t : IPSet} (hpb : t.Pairwise before)
    (hwf : ∀ z ∈ t, Wf z) {x z : IPNet} (hx : x ∈ t) (hz : z ∈ t)
    (hcomb : (x.CanCombineWith z).1 = true) :
    prevOf t x = some z ∨ nextOf t x = some z := by
  have hwx := hwf x hx
  have hwz := hwf z hz
  have hbx := ip_le_broadcastAddr hwx
  have hbz := ip_le_broadcastAddr hwz
  obtain ⟨hw, hadj⟩ := combinable_adjacent hwx hwz hcomb
  have hxz : x ≠ z := by
    rintro rfl
    rcases hadj with h | h <;> omega
  rcases hadj with hadj | hadj
  · right
    unfold nextOf
    apply head_of_min (hpb.filter _)
      (fun y hy => hwf y (List.mem_of_mem_filter hy))
    · rw [List.mem_filter]
      exact ⟨hz, before_keyLt hwx (Or.inr ⟨hw, by omega⟩)⟩
    · intro y hy hne
      rw [List.mem_filter] at hy
      obtain ⟨hyt, hyk⟩ := hy
      have hwy := hwf y hyt
      have hyx : y ≠ x := by
        rintro rfl
        have := keyLtP_of_keyLt hyk
        rcases this with h | ⟨_, h⟩ <;> omega
      rcases pairwise_before_total hpb hx hyt (fun he => hyx he.symm)
        with hbxy | hbxy
      · rcases hbxy with hww | ⟨hww, hbb⟩
        · exact Or.inl (hw ▸ hww)
        · by_cases hyp2 : z.BroadcastAddr < y.ip
          · exact Or.inr ⟨hw ▸ hww, hyp2⟩
          · exfalso
            apply pairwise_before_disjoint hpb hyt hz hne
              (memAddr_self_ip hwy)
            exact ⟨hw.symm.trans hww, by omega, by omega⟩
      · exfalso
        have := before_keyLt hwy hbxy
        have k1 := keyLtP_of_keyLt this
        have k2 := keyLtP_of_keyLt hyk
        rcases k1 with k1 | ⟨k1w, k1⟩ <;> rcases k2 with k2 | ⟨k2w, k2⟩ <;>
          omega
  · left
    unfold prevOf
    apply last_of_max (hpb.filter _)
      (fun y hy => hwf y (List.mem_of_mem_filter hy))
    · rw [List.mem_filter]
      exact ⟨hz, before_keyLt hwz (Or.inr ⟨hw.symm, by omega⟩)⟩
    · intro y hy hne
      rw [List.mem_filter] at hy
      obtain ⟨hyt, hyk⟩ := hy
      have hwy := hwf y hyt
      have hyx : y ≠ x := by
        rintro rfl
        have := keyLtP_of_keyLt hyk
        rcases this with h | ⟨_, h⟩ <;> omega
      rcases pairwise_before_total hpb hyt hx hyx with hbxy | hbxy
      · rcases hbxy with hww | ⟨hww, hbb⟩
        · exact Or.inl (hw ▸ hww)
        · by_cases hyp2 : y.BroadcastAddr < z.ip
          · exact Or.inr ⟨hww.trans hw, hyp2⟩
          · exfalso
            apply pairwise_before_disjoint hpb hyt hz hne
              ⟨rfl, ip_le_broadcastAddr hwy, le_refl _⟩
            exact ⟨hw.symm.trans hww.symm, by omega, by omega⟩
      · exfalso
        have := before_keyLt hwx hbxy
        have k1 := keyLtP_of_keyLt this
        have k2 := keyLtP_of_keyLt hyk
        rcases k1 with k1 | ⟨k1w, k1⟩ <;> rcases k2 with k2 | ⟨k2w, k2⟩ <;>
          omega

theorem treeInsert_covered {s : IPSet} {x : IPNet}
    (h : s.any (fun node => node.ContainsNet x) = true) :
    IPSet.treeInsert s x = (s, false) := by
  unfold IPSet.treeInsert
  rw [if_pos h]

theorem treeInsert_new {s : IPSet} {x : IPNet}
    (h : s.any (fun node => node.ContainsNet x) = false) :
    IPSet.treeInsert s x =
      (insertPos x (s.filter (fun node => !(x.ContainsNet node))), true) := by
  unfold IPSet.treeInsert
  rw [if_neg (by simp [h])]

/-- State of the tree right after a fresh candidate has been placed:
sorted, canonical, candidate present, semantics grown by the candidate's
range, and every other node comes from the old set with no containment
either way against the candidate. -/
theorem treeInsert_placed {s : IPSet} {cur : IPNet}
    (hpb : s.Pairwise before) (hwf : ∀ z ∈ s, Wf z) (hwc : Wf cur)
    (hany : s.any (fun node => node.ContainsNet cur) = false) :
    (insertPos cur (s.filter (fun node => !(cur.ContainsNet node)))).Pairwise
      before ∧
    (∀ z ∈ insertPos cur (s.filter (fun node => !(cur.ContainsNet node))),
      Wf z) ∧
    cur ∈ insertPos cur (s.filter (fun node => !(cur.ContainsNet node))) ∧
    (∀ w v, IPSet.memAddr
        (insertPos cur (s.filter (fun node => !(cur.ContainsNet node)))) w v ↔
      (IPSet.memAddr s w v ∨ cur.memAddr w v)) ∧
    (∀ x ∈ insertPos cur (s.filter (fun node => !(cur.ContainsNet node))),
      x ≠ cur → x ∈ s ∧ cur.ContainsNet x = false ∧
        x.ContainsNet cur = false) := by
  have hnocont : ∀ z ∈ s, z.ContainsNet cur = false := by
    intro z hz
    have h := List.any_eq_false.mp hany z hz
    simpa using h
  have hlmem : ∀ z, (z ∈ s.filter (fun node => !(cur.ContainsNet node))) ↔
      (z ∈ s ∧ cur.ContainsNet z = false) := by
    intro z
    rw [List.mem_filter]
    simp
  have hlwf : ∀ z ∈ s.filter (fun node => !(cur.ContainsNet node)), Wf z :=
    fun z hz => hwf z (List.mem_of_mem_filter hz)
  have hcomp : ∀ z ∈ s.filter (fun node => !(cur.ContainsNet node)),
      before cur z ∨ before z cur := by
    intro z hz
    obtain ⟨hzs, hzc⟩ := (hlmem z).mp hz
    refine disjoint_before hwc (hwf z hzs) ?_
    rintro w v ⟨h1, h2⟩
    rcases overlap_containsNet hwc (hwf z hzs) h1 h2 with hc | hc
    · rw [hc] at hzc
      exact absurd hzc (by simp)
    · have := hnocont z hzs
      rw [hc] at this
      exact absurd this (by simp)
  refine ⟨insertPos_pairwise_before hwc (hpb.filter _) hlwf hcomp, ?_,
    insertPos_mem.mpr (Or.inl rfl), ?_, ?_⟩
  · intro z hz
    rcases insertPos_mem.mp hz with rfl | hz
    · exact hwc
    · exact hlwf z hz
  · intro w v
    constructor
    · rintro ⟨z, hz, hzm⟩
      rcases insertPos_mem.mp hz with rfl | hz
      · exact Or.inr hzm
      · exact Or.inl ⟨z, ((hlmem z).mp hz).1, hzm⟩
    · rintro (⟨z, hz, hzm⟩ | hcm)
      · by_cases hcz : cur.ContainsNet z = true
        · exact ⟨cur, insertPos_mem.mpr (Or.inl rfl),
            containsNet_mem hwc (hwf z hz) hcz hzm⟩
        · exact ⟨z, insertPos_mem.mpr (Or.inr ((hlmem z).mpr
            ⟨hz, eq_false_of_ne_true hcz⟩)), hzm⟩
      · exact ⟨cur, insertPos_mem.mpr (Or.inl rfl), hcm⟩
  · intro x hx hne
    rcases insertPos_mem.mp hx with rfl | hx
    · exact absurd rfl hne
    · obtain ⟨hxs, hxc⟩ := (hlmem x).mp hx
      exact ⟨hxs, hxc, hnocont x hxs⟩

theorem prevOf_mem {t : IPSet} {cur p : IPNet} (h : prevOf t cur = some p) :
    p ∈ t ∧ keyLt p cur = true := by
  unfold prevOf at h
  have hm := List.mem_of_getLast?_eq_some h
  rw [List.mem_filter] at hm
  exact ⟨hm.1, hm.2⟩

theorem nextOf_mem {t : IPSet} {cur nx : IPNet} (h : nextOf t cur = some nx) :
    nx ∈ t ∧ keyLt cur nx = true := by
  unfold nextOf at h
  have hm := List.mem_of_mem_head?
    (l := t.filter fun n => keyLt cur n) (a := nx) h
  rw [List.mem_filter] at hm
  exact ⟨hm.1, hm.2⟩

theorem coalesceStep_ones_lt {t : IPSet} {cur : IPNet}
    (hwf : ∀ z ∈ t, Wf z) (hwc : Wf cur)
    (hmerge : (∃ p, prevOf t cur = some p ∧ (p.CanCombineWith cur).1 = true) ∨
      (∃ nx, nextOf t cur = some nx ∧ (cur.CanCombineWith nx).1 = true)) :
    (coalesceStep t cur).ones < cur.ones := by
  cases hp : prevOf t cur with
  | some p =>
    have hpt := (prevOf_mem hp).1
    by_cases hpc : (p.CanCombineWith cur).1 = true
    · obtain ⟨hpw, hpo, hp1, _⟩ := canCombineWith_cases (hwf p hpt) hwc hpc
      have hv : p.CanCombineWith cur = (true, some ⟨p.width, p.ones - 1, p.ip⟩) :=
        Prod.ext hpc (canCombineWith_snd hpc)
      cases hnx : nextOf t cur with
      | none =>
        have hval : coalesceStep t cur = ⟨p.width, p.ones - 1, p.ip⟩ := by
          simp only [coalesceStep, hp, hnx, hv]
        rw [hval]
        show p.ones - 1 < cur.ones
        omega
      | some nx =>
        by_cases hmc :
            ((⟨p.width, p.ones - 1, p.ip⟩ : IPNet).CanCombineWith nx).1 = true
        · have hv2 : (⟨p.width, p.ones - 1, p.ip⟩ : IPNet).CanCombineWith nx
              = (true, some ⟨p.width, p.ones - 1 - 1, p.ip⟩) :=
            Prod.ext hmc (canCombineWith_snd hmc)
          have hval : coalesceStep t cur = ⟨p.width, p.ones - 1 - 1, p.ip⟩ := by
            simp only [coalesceStep, hp, hnx, hv, hv2]
          rw [hval]
          show p.ones - 1 - 1 < cur.ones
          omega
        · rcases hv2 : (⟨p.width, p.ones - 1, p.ip⟩ : IPNet).CanCombineWith nx
            with ⟨b, o⟩
          have hb : b = false := by
            rw [hv2] at hmc
            simpa using hmc
          subst hb
          have hval : coalesceStep t cur = ⟨p.width, p.ones - 1, p.ip⟩ := by
            cases o <;> simp only [coalesceStep, hp, hnx, hv, hv2]
          rw [hval]
          show p.ones - 1 < cur.ones
          omega
    · rcases hmerge with ⟨p2, hp2, hc2⟩ | ⟨nx, hnx, hcnx⟩
      · rw [hp] at hp2
        injection hp2 with he
        subst he
        exact absurd hc2 hpc
      · rcases hv : p.CanCombineWith cur with ⟨b, o⟩
        have hb : b = false := by
          rw [hv] at hpc
          simpa using hpc
        subst hb
        have hnt := (nextOf_mem hnx).1
        obtain ⟨_, _, h1c, _⟩ := canCombineWith_cases hwc (hwf nx hnt) hcnx
        have hv2 : cur.CanCombineWith nx
            = (true, some ⟨cur.width, cur.ones - 1, cur.ip⟩) :=
          Prod.ext hcnx (canCombineWith_snd hcnx)
        have hval : coalesceStep t cur = ⟨cur.width, cur.ones - 1, cur.ip⟩ := by
          cases o <;> simp only [coalesceStep, hp, hnx, hv, hv2]
        rw [hval]
        show cur.ones - 1 < cur.ones
        omega
  | none =>
    rcases hmerge with ⟨p2, hp2, _⟩ | ⟨nx, hnx, hcnx⟩
    · rw [hp] at hp2
      exact absurd hp2 (by simp)
    · have hnt := (nextOf_mem hnx).1
      obtain ⟨_, _, h1c, _⟩ := canCombineWith_cases hwc (hwf nx hnt) hcnx
      have hv2 : cur.CanCombineWith nx
          = (true, some ⟨cur.width, cur.ones - 1, cur.ip⟩) :=
        Prod.ext hcnx (canCombineWith_snd hcnx)
      have hval : coalesceStep t cur = ⟨cur.width, cur.ones - 1, cur.ip⟩ := by
        simp only [coalesceStep, hp, hnx, hv2]
      rw [hval]
      show cur.ones - 1 < cur.ones
      omega

theorem coalesceStep_fix {t : IPSet} {cur : IPNet}
    (hwf : ∀ z ∈ t, Wf z) (hwc : Wf cur)
    (hfix : coalesceStep t cur = cur) :
    (∀ p, prevOf t cur = some p → (p.CanCombineWith cur).1 = false) ∧
    (∀ nx, nextOf t cur = some nx → (cur.CanCombineWith nx).1 = false) := by
  constructor
  · intro p hp
    by_contra hc
    have hc2 : (p.CanCombineWith cur).1 = true := by simpa using hc
    have := coalesceStep_ones_lt hwf hwc (Or.inl ⟨p, hp, hc2⟩)
    rw [hfix] at this
    omega
  · intro nx hnx
    by_contra hc
    have hc2 : (cur.CanCombineWith nx).1 = true := by simpa using hc
    have := coalesceStep_ones_lt hwf hwc (Or.inr ⟨nx, hnx, hc2⟩)
    rw [hfix] at this
    omega

/-- One coalescing pass that actually merged: the result is canonical with
a strictly shorter mask, covers the candidate, stays inside the tree's
address set, and absorbs any stored network combinable with the
candidate. -/
theorem coalesceStep_merge {t : IPSet} {cur : IPNet}
    (hwf : ∀ z ∈ t, Wf z) (hwc : Wf cur)
    (hct : cur ∈ t) (hne : coalesceStep t cur ≠ cur) :
    Wf (coalesceStep t cur) ∧
    (coalesceStep t cur).ones < cur.ones ∧
    (∀ w v, cur.memAddr w v → (coalesceStep t cur).memAddr w v) ∧
    (∀ w v, (coalesceStep t cur).memAddr w v → IPSet.memAddr t w v) ∧
    (∀ z ∈ t, (cur.CanCombineWith z).1 = true →
      ∀ w v, z.memAddr w v → (coalesceStep t cur).memAddr w v) := by
  cases hp : prevOf t cur with
  | some p =>
    obtain ⟨hpt, hpk⟩ := prevOf_mem hp
    have hwp := hwf p hpt
    by_cases hpc : (p.CanCombineWith cur).1 = true
    · obtain ⟨hpw, hpo, hp1, _⟩ := canCombineWith_cases hwp hwc hpc
      have hplow : p.ip < cur.ip := by
        rcases keyLtP_of_keyLt hpk with h | ⟨_, h⟩ <;> omega
      obtain ⟨hWm1, hcip, hm1mem⟩ := merged_lower hwp hwc hpc hplow
      have hcp : (cur.CanCombineWith p).1 = true :=
        (canCombineWith_symm hwp hwc).mp hpc
      have hv : p.CanCombineWith cur
          = (true, some ⟨p.width, p.ones - 1, p.ip⟩) :=
        Prod.ext hpc (canCombineWith_snd hpc)
      cases hnx : nextOf t cur with
      | none =>
        have hval : coalesceStep t cur = ⟨p.width, p.ones - 1, p.ip⟩ := by
          simp only [coalesceStep, hp, hnx, hv]
        rw [hval]
        refine ⟨hWm1, ?_, ?_, ?_, ?_⟩
        · show p.ones - 1 < cur.ones
          omega
        · exact fun w v h => (hm1mem w v).mpr (Or.inr h)
        · intro w v h
          rcases (hm1mem w v).mp h with h | h
          · exact ⟨p, hpt, h⟩
          · exact ⟨cur, hct, h⟩
        · intro z hzt hcz w v hzm
          have hpz : p = z := combinable_unique hwc hwp (hwf z hzt) hcp hcz
          exact (hm1mem w v).mpr (Or.inl (hpz ▸ hzm))
      | some nx =>
        obtain ⟨hnt, hnk⟩ := nextOf_mem hnx
        have hwn := hwf nx hnt
        by_cases hmc :
            ((⟨p.width, p.ones - 1, p.ip⟩ : IPNet).CanCombineWith nx).1
              = true
        · have hv2 : (⟨p.width, p.ones - 1, p.ip⟩ : IPNet).CanCombineWith nx
              = (true, some ⟨p.width, p.ones - 1 - 1, p.ip⟩) :=
            Prod.ext hmc (canCombineWith_snd hmc)
          obtain ⟨hmw, _, _, _⟩ := canCombineWith_cases hWm1 hwn hmc
          have hM1w : (⟨p.width, p.ones - 1, p.ip⟩ : IPNet).width = p.width :=
            rfl
          have hm1low : (⟨p.width, p.ones - 1, p.ip⟩ : IPNet).ip < nx.ip := by
            show p.ip < nx.ip
            rcases keyLtP_of_keyLt hnk with h | ⟨_, h⟩
            · rw [hM1w] at hmw
              omega
            · omega
          obtain ⟨hWm2a, _, hm2mema⟩ := merged_lower hWm1 hwn hmc hm1low
          have hWm2 : Wf ⟨p.width, p.ones - 1 - 1, p.ip⟩ := hWm2a
          have hm2mem : ∀ w v,
              (⟨p.width, p.ones - 1 - 1, p.ip⟩ : IPNet).memAddr w v ↔
                ((⟨p.width, p.ones - 1, p.ip⟩ : IPNet).memAddr w v ∨
                  nx.memAddr w v) := hm2mema
          have hval : coalesceStep t cur = ⟨p.width, p.ones - 1 - 1, p.ip⟩ := by
            simp only [coalesceStep, hp, hnx, hv, hv2]
          rw [hval]
          refine ⟨hWm2, ?_, ?_, ?_, ?_⟩
          · show p.ones - 1 - 1 < cur.ones
            omega
          · exact fun w v h =>
              (hm2mem w v).mpr (Or.inl ((hm1mem w v).mpr (Or.inr h)))
          · intro w v h
            rcases (hm2mem w v).mp h with h | h
            · rcases (hm1mem w v).mp h with h | h
              · exact ⟨p, hpt, h⟩
              · exact ⟨cur, hct, h⟩
            · exact ⟨nx, hnt, h⟩
          · intro z hzt hcz w v hzm
            have hpz : p = z := combinable_unique hwc hwp (hwf z hzt) hcp hcz
            exact (hm2mem w v).mpr
              (Or.inl ((hm1mem w v).mpr (Or.inl (hpz ▸ hzm))))
        · rcases hv2 : (⟨p.width, p.ones - 1, p.ip⟩ : IPNet).CanCombineWith nx
            with ⟨b, o⟩
          have hb : b = false := by
            rw [hv2] at hmc
            simpa using hmc
          subst hb
          have hval : coalesceStep t cur = ⟨p.width, p.ones - 1, p.ip⟩ := by
            cases o <;> simp only [coalesceStep, hp, hnx, hv, hv2]
          rw [hval]
          refine ⟨hWm1, ?_, ?_, ?_, ?_⟩
          · show p.ones - 1 < cur.ones
            omega
          · exact fun w v h => (hm1mem w v).mpr (Or.inr h)
          · intro w v h
            rcases (hm1mem w v).mp h with h | h
            · exact ⟨p, hpt, h⟩
            · exact ⟨cur, hct, h⟩
          · intro z hzt hcz w v hzm
            have hpz : p = z := combinable_unique hwc hwp (hwf z hzt) hcp hcz
            exact (hm1mem w v).mpr (Or.inl (hpz ▸ hzm))
    · rcases hv : p.CanCombineWith cur with ⟨b, o⟩
      have hb : b = false := by
        rw [hv] at hpc
        simpa using hpc
      subst hb
      cases hnx : nextOf t cur with
      | none =>
        exfalso
        apply hne
        cases o <;> simp only [coalesceStep, hp, hnx, hv]
      | some nx =>
        obtain ⟨hnt, hnk⟩ := nextOf_mem hnx
        have hwn := hwf nx hnt
        by_cases hcnx : (cur.CanCombineWith nx).1 = true
        · obtain ⟨hcw, hco, hc1, _⟩ := canCombineWith_cases hwc hwn hcnx
          have hclow : cur.ip < nx.ip := by
            rcases keyLtP_of_keyLt hnk with h | ⟨_, h⟩ <;> omega
          obtain ⟨hWm, hnip, hmmem⟩ := merged_lower hwc hwn hcnx hclow
          have hv2 : cur.CanCombineWith nx
              = (true, some ⟨cur.width, cur.ones - 1, cur.ip⟩) :=
            Prod.ext hcnx (canCombineWith_snd hcnx)
          have hval : coalesceStep t cur
              = ⟨cur.width, cur.ones - 1, cur.ip⟩ := by
            cases o <;> simp only [coalesceStep, hp, hnx, hv, hv2]
          rw [hval]
          refine ⟨hWm, ?_, ?_, ?_, ?_⟩
          · show cur.ones - 1 < cur.ones
            omega
          · exact fun w v h => (hmmem w v).mpr (Or.inl h)
          · intro w v h
            rcases (hmmem w v).mp h with h | h
            · exact ⟨cur, hct, h⟩
            · exact ⟨nx, hnt, h⟩
          · intro z hzt hcz w v hzm
            have hnz : nx = z := combinable_unique hwc hwn (hwf z hzt) hcnx hcz
            exact (hmmem w v).mpr (Or.inr (hnz ▸ hzm))
        · exfalso
          apply hne
          rcases hv2 : cur.CanCombineWith nx with ⟨b2, o2⟩
          have hb2 : b2 = false := by
            rw [hv2] at hcnx
            simpa using hcnx
          subst hb2
          cases o <;> cases o2 <;> simp only [coalesceStep, hp, hnx, hv, hv2]
  | none =>
    cases hnx : nextOf t cur with
    | none =>
      exfalso
      apply hne
      simp only [coalesceStep, hp, hnx]
    | some nx =>
      obtain ⟨hnt, hnk⟩ := nextOf_mem hnx
      have hwn := hwf nx hnt
      by_cases hcnx : (cur.CanCombineWith nx).1 = true
      · obtain ⟨hcw, hco, hc1, _⟩ := canCombineWith_cases hwc hwn hcnx
        have hclow : cur.ip < nx.ip := by
          rcases keyLtP_of_keyLt hnk with h | ⟨_, h⟩ <;> omega
        obtain ⟨hWm, hnip, hmmem⟩ := merged_lower hwc hwn hcnx hclow
        have hv2 : cur.CanCombineWith nx
            = (true, some ⟨cur.width, cur.ones - 1, cur.ip⟩) :=
          Prod.ext hcnx (canCombineWith_snd hcnx)
        have hval : coalesceStep t cur
            = ⟨cur.width, cur.ones - 1, cur.ip⟩ := by
          simp only [coalesceStep, hp, hnx, hv2]
        rw [hval]
        refine ⟨hWm, ?_, ?_, ?_, ?_⟩
        · show cur.ones - 1 < cur.ones
          omega
        · exact fun w v h => (hmmem w v).mpr (Or.inl h)
        · intro w v h
          rcases (hmmem w v).mp h with h | h
          · exact ⟨cur, hct, h⟩
          · exact ⟨nx, hnt, h⟩
        · intro z hzt hcz w v hzm
          have hnz : nx = z := combinable_unique hwc hwn (hwf z hzt) hcnx hcz
          exact (hmmem w v).mpr (Or.inr (hnz ▸ hzm))
      · exfalso
        apply hne
        rcases hv2 : cur.CanCombineWith nx with ⟨b2, o2⟩
        have hb2 : b2 = false := by
          rw [hv2] at hcnx
          simpa using hcnx
        subst hb2
        cases o2 <;> simp only [coalesceStep, hp, hnx, hv2]

theorem insertLoop_stop {s : IPSet} {cur : IPNet} {fuel : Nat}
    (hany : s.any (fun node => node.ContainsNet cur) = true) :
    insertLoop (fuel + 1) s cur = s := by
  conv_lhs => rw [insertLoop]
  rw [treeInsert_covered hany]

theorem insertLoop_step {s : IPSet} {cur : IPNet} {fuel : Nat} {t : IPSet}
    (hany : s.any (fun node => node.ContainsNet cur) = false)
    (ht : insertPos cur (s.filter (fun node => !(cur.ContainsNet node))) = t) :
    insertLoop (fuel + 1) s cur =
      (if coalesceStep t cur = cur then t
       else insertLoop fuel t (coalesceStep t cur)) := by
  conv_lhs => rw [insertLoop]
  rw [treeInsert_new hany, ht]

/-- Full behavior of the coalescing insert loop: starting from a sorted,
canonical set whose combinable pairs (if any) all lie inside the
candidate's range, with enough fuel the loop returns a set satisfying the
canonical-form invariant, containing a node that covers the candidate,
whose address set is the old one plus the candidate's range. -/
theorem insertLoop_main : ∀ (fuel : Nat) (s : IPSet) (cur : IPNet),
    cur.ones < fuel →
    s.Pairwise before → (∀ z ∈ s, Wf z) → Wf cur →
    (s.Pairwise noCombine ∨
      ((∀ x ∈ s, ∀ y ∈ s, x ≠ y → (x.CanCombineWith y).1 = true →
         ∀ w v, x.memAddr w v → cur.memAddr w v) ∧
       (∀ q ∈ s, q.ContainsNet cur = false))) →
    Good (insertLoop fuel s cur) ∧
    (∃ nd ∈ insertLoop fuel s cur,
      ∀ w v, cur.memAddr w v → nd.memAddr w v) ∧
    (∀ w v, IPSet.memAddr (insertLoop fuel s cur) w v ↔
      (IPSet.memAddr s w v ∨ cur.memAddr w v)) := by
  intro fuel
  induction fuel with
  | zero =>
    intro s cur hf _ _ _ _
    exact absurd hf (Nat.not_lt_zero _)
  | succ fuel ih =>
    intro s cur hf hpb hwfs hwc hinv
    by_cases hany : (s.any fun node => node.ContainsNet cur) = true
    · rw [insertLoop_stop hany]
      obtain ⟨q, hq, hqc⟩ := List.any_eq_true.mp hany
      have hnc_s : s.Pairwise noCombine := by
        rcases hinv with h | ⟨_, hno⟩
        · exact h
        · exfalso
          have h2 := hno q hq
          rw [hqc] at h2
          exact absurd h2 (by simp)
      refine ⟨⟨hpb, hnc_s, hwfs⟩,
        ⟨q, hq, fun w v h => containsNet_mem (hwfs q hq) hwc hqc h⟩, ?_⟩
      intro w v
      constructor
      · exact Or.inl
      · rintro (h | h)
        · exact h
        · exact ⟨q, hq, containsNet_mem (hwfs q hq) hwc hqc h⟩
    · have hany2 : (s.any fun node => node.ContainsNet cur) = false :=
        eq_false_of_ne_true hany
      obtain ⟨t, htEq⟩ :
          ∃ t, insertPos cur (s.filter (fun node => !(cur.ContainsNet node)))
            = t := ⟨_, rfl⟩
      obtain ⟨ht_pb, ht_wf, ht_cur, ht_mem, ht_other⟩ :=
        treeInsert_placed hpb hwfs hwc hany2
      rw [htEq] at ht_pb ht_wf ht_cur ht_mem ht_other
      rw [insertLoop_step hany2 htEq]
      by_cases hfix : coalesceStep t cur = cur
      · rw [if_pos hfix]
        obtain ⟨hfp, hfn⟩ := coalesceStep_fix ht_wf hwc hfix
        have hnc2 : ∀ x ∈ t, ∀ y ∈ t, x ≠ y →
            (x.CanCombineWith y).1 = false := by
          intro x hx y hy hne2
          by_contra hcc
          have hcc2 : (x.CanCombineWith y).1 = true := by simpa using hcc
          by_cases hxc : x = cur
          · rw [hxc] at hcc2
            rcases combinable_neighbor ht_pb ht_wf ht_cur hy hcc2
              with hpy | hny
            · have h1 := (canCombineWith_symm hwc (ht_wf y hy)).mp hcc2
              rw [hfp y hpy] at h1
              exact absurd h1 (by simp)
            · have h1 := hcc2
              rw [hfn y hny] at h1
              exact absurd h1 (by simp)
          · by_cases hyc : y = cur
            · rw [hyc] at hcc2
              have hcx : (cur.CanCombineWith x).1 = true :=
                (canCombineWith_symm (ht_wf x hx) hwc).mp hcc2
              rcases combinable_neighbor ht_pb ht_wf ht_cur hx hcx
                with hpx | hnx2
              · have h1 := hcc2
                rw [hfp x hpx] at h1
                exact absurd h1 (by simp)
              · have h1 := hcx
                rw [hfn x hnx2] at h1
                exact absurd h1 (by simp)
            · obtain ⟨hxs, hcxf, _⟩ := ht_other x hx hxc
              obtain ⟨hys, _, _⟩ := ht_other y hy hyc
              rcases hinv with hnc_s | ⟨ha, _⟩
              · have hsym : Symmetric noCombine := fun a b h => ⟨h.2, h.1⟩
                have h1 := (hnc_s.forall hsym hxs hys hne2).1
                rw [h1] at hcc2
                exact absurd hcc2 (by simp)
              · have hsub := ha x hxs y hys hne2 hcc2
                have hcx : cur.ContainsNet x = true :=
                  containsNet_of_mem_subset (ht_wf x hx) hwc hsub
                rw [hcx] at hcxf
                exact absurd hcxf (by simp)
        have hnc_t : t.Pairwise noCombine := by
          refine ht_pb.imp_of_mem ?_
          intro a b ha2 hb2 hab
          have hne2 : a ≠ b := by
            rintro rfl
            exact before_irrefl (ht_wf a ha2) hab
          exact ⟨hnc2 a ha2 b hb2 hne2, hnc2 b hb2 a ha2 (Ne.symm hne2)⟩
        exact ⟨⟨ht_pb, hnc_t, ht_wf⟩, ⟨cur, ht_cur, fun w v h => h⟩, ht_mem⟩
      · rw [if_neg hfix]
        obtain ⟨hWn2, hlt2, hcsub, hn2sub, hpartner⟩ :=
          coalesceStep_merge ht_wf hwc ht_cur hfix
        have ha2 : ∀ x ∈ t, ∀ y ∈ t, x ≠ y → (x.CanCombineWith y).1 = true →
            ∀ w v, x.memAddr w v → (coalesceStep t cur).memAddr w v := by
          intro x hx y hy hne2 hcc w v hxm
          by_cases hxc : x = cur
          · exact hcsub w v (hxc ▸ hxm)
          · by_cases hyc : y = cur
            · rw [hyc] at hcc
              have hcx : (cur.CanCombineWith x).1 = true :=
                (canCombineWith_symm (ht_wf x hx) hwc).mp hcc
              exact hpartner x hx hcx w v hxm
            · obtain ⟨hxs, hcxf, _⟩ := ht_other x hx hxc
              obtain ⟨hys, _, _⟩ := ht_other y hy hyc
              rcases hinv with hnc_s | ⟨ha, _⟩
              · exfalso
                have hsym : Symmetric noCombine := fun a b h => ⟨h.2, h.1⟩
                have h1 := (hnc_s.forall hsym hxs hys hne2).1
                rw [h1] at hcc
                exact absurd hcc (by simp)
              · exact hcsub w v (ha x hxs y hys hne2 hcc w v hxm)
        have hq2 : ∀ q ∈ t, q.ContainsNet (coalesceStep t cur) = false := by
          intro q hq
          by_contra hqc
          have hqc2 : q.ContainsNet (coalesceStep t cur) = true := by
            simpa using hqc
          by_cases hqcur : q = cur
          · rw [hqcur] at hqc2
            obtain ⟨hw1, hip1, hbc1⟩ := (containsNet_iff hwc hWn2).mp hqc2
            have hn2c : (coalesceStep t cur).ContainsNet cur = true :=
              containsNet_of_mem_subset hwc hWn2 hcsub
            obtain ⟨hw2, hip2, hbc2⟩ :=
              (containsNet_iff hWn2 hwc).mp hn2c
            have hb1 := broadcastAddr_eq hwc
            have hb2 := broadcastAddr_eq hWn2
            have hp1 := Nat.two_pow_pos cur.hostBits
            have hp2 := Nat.two_pow_pos (coalesceStep t cur).hostBits
            have hpe : 2 ^ cur.hostBits
                = 2 ^ (coalesceStep t cur).hostBits := by omega
            have hhb : cur.hostBits = (coalesceStep t cur).hostBits :=
              Nat.pow_right_injective (by norm_num) hpe
            have hob := hwc.2.1
            have hob2 := hWn2.2.1
            unfold IPNet.hostBits IPNet.bits at hhb hob hob2
            omega
          · have hmq : q.memAddr cur.width cur.ip :=
              containsNet_mem (ht_wf q hq) hWn2 hqc2
                (hcsub cur.width cur.ip (memAddr_self_ip hwc))
            exact pairwise_before_disjoint ht_pb hq ht_cur hqcur hmq
              (memAddr_self_ip hwc)
        obtain ⟨ihG, ⟨nd, hnd, hndsub⟩, ihmem⟩ :=
          ih t (coalesceStep t cur) (by omega) ht_pb ht_wf hWn2
            (Or.inr ⟨ha2, hq2⟩)
        refine ⟨ihG, ⟨nd, hnd, fun w v h => hndsub w v (hcsub w v h)⟩, ?_⟩
        intro w v
        rw [ihmem w v, ht_mem w v]
        constructor
        · rintro (h | h)
          · exact h
          · exact (ht_mem w v).mp (hn2sub w v h)
        · exact Or.inl

/-! ## Removal infrastructure -/

theorem eq_of_range_eq {a b : IPNet} (ha : Wf a) (hb : Wf b)
    (hw : a.width = b.width) (hip : a.ip = b.ip)
    (hbc : a.BroadcastAddr = b.BroadcastAddr) : a = b := by
  have h1 := broadcastAddr_eq ha
  have h2 := broadcastAddr_eq hb
  have hp1 := Nat.two_pow_pos a.hostBits
  have hp2 := Nat.two_pow_pos b.hostBits
  have hpe : 2 ^ a.hostBits = 2 ^ b.hostBits := by omega
  have hhb : a.hostBits = b.hostBits :=
    Nat.pow_right_injective (by norm_num) hpe
  have ho1 := ha.2.1
  have ho2 := hb.2.1
  refine ipnet_ext hw ?_ hip
  unfold IPNet.hostBits IPNet.bits at hhb
  unfold IPNet.bits at ho1 ho2
  omega

theorem insertPos_perm {x : IPNet} {l : List IPNet} :
    List.Perm (insertPos x l) (x :: l) := by
  induction l with
  | nil => exact List.Perm.refl _
  | cons y l ihl =>
    unfold insertPos
    by_cases hk : keyLt x y = true
    · rw [if_pos hk]
    · rw [if_neg hk]
      exact (ihl.cons y).trans (List.Perm.swap x y l)

theorem sortNets_perm {l : List IPNet} : List.Perm (sortNets l) l := by
  induction l with
  | nil => exact List.Perm.refl _
  | cons y l ihl =>
    show List.Perm (insertPos y (sortNets l)) (y :: l)
    exact insertPos_perm.trans (ihl.cons y)

theorem mem_sortNets {l : List IPNet} {x : IPNet} :
    x ∈ sortNets l ↔ x ∈ l :=
  List.Perm.mem_iff sortNets_perm

theorem sortNets_pairwise {l : List IPNet} (hwf : ∀ x ∈ l, Wf x)
    (hdis : l.Pairwise disjointNets) : (sortNets l).Pairwise before := by
  induction l with
  | nil => exact List.Pairwise.nil
  | cons y l ihl =>
    rw [List.pairwise_cons] at hdis
    show (insertPos y (sortNets l)).Pairwise before
    refine insertPos_pairwise_before (hwf y (List.mem_cons_self ..))
      (ihl (fun z hz => hwf z (List.mem_cons_of_mem _ hz)) hdis.2) ?_ ?_
    · intro z hz
      exact hwf z (List.mem_cons_of_mem _ (mem_sortNets.mp hz))
    · intro z hz
      have hzl := mem_sortNets.mp hz
      exact disjoint_before (hwf y (List.mem_cons_self ..))
        (hwf z (List.mem_cons_of_mem _ hzl)) (hdis.1 z hzl)

theorem noCombine_of_ones_ne {x y : IPNet} (hx : Wf x) (hy : Wf y)
    (h : x.ones ≠ y.ones) : noCombine x y := by
  constructor
  · by_contra hc
    have hc2 := (canCombineWith_iff hx hy).mp (by simpa using hc)
    exact h hc2.2.1
  · by_contra hc
    have hc2 := (canCombineWith_iff hy hx).mp (by simpa using hc)
    exact h hc2.2.1.symm

theorem before_pieces {a b x y : IPNet} (hwa : Wf a) (hwb : Wf b)
    (hwx : Wf x) (hwy : Wf y) (hab : before a b)
    (hxa : ∀ w v, x.memAddr w v → a.memAddr w v)
    (hyb : ∀ w v, y.memAddr w v → b.memAddr w v) : before x y := by
  have hca : a.ContainsNet x = true := containsNet_of_mem_subset hwx hwa hxa
  have hcb : b.ContainsNet y = true := containsNet_of_mem_subset hwy hwb hyb
  obtain ⟨haw, _, hax⟩ := (containsNet_iff hwa hwx).mp hca
  obtain ⟨hbw, hby, _⟩ := (containsNet_iff hwb hwy).mp hcb
  rcases hab with h | ⟨hweq, hblt⟩
  · exact Or.inl (by omega)
  · exact Or.inr ⟨by omega, by omega⟩

/-- A canonical block squeezed between a half and its parent is one of
the two. -/
theorem dyadic_squeeze {ni x P : IPNet} (hwi : Wf ni) (hwx : Wf x)
    (hwP : Wf P)
    (h1 : ni.ContainsNet x = true) (h2 : P.ContainsNet ni = true)
    (hhb : P.hostBits = x.hostBits + 1) :
    ni = x ∨ ni = P := by
  obtain ⟨hw1, hip1, hbc1⟩ := (containsNet_iff hwi hwx).mp h1
  obtain ⟨hw2, hip2, hbc2⟩ := (containsNet_iff hwP hwi).mp h2
  have hb1 := broadcastAddr_eq hwi
  have hb2 := broadcastAddr_eq hwx
  have hb3 := broadcastAddr_eq hwP
  have hp1 := Nat.two_pow_pos ni.hostBits
  have hp2 := Nat.two_pow_pos x.hostBits
  have hp3 := Nat.two_pow_pos P.hostBits
  rcases le_or_lt ni.hostBits x.hostBits with hc | hc
  · left
    have hle : 2 ^ ni.hostBits ≤ 2 ^ x.hostBits :=
      Nat.pow_le_pow_right (by norm_num) hc
    exact eq_of_range_eq hwi hwx hw1 (by omega) (by omega)
  · right
    have hle : 2 ^ P.hostBits ≤ 2 ^ ni.hostBits := by
      rw [hhb]
      exact Nat.pow_le_pow_right (by norm_num) hc
    exact eq_of_range_eq hwi hwP hw2.symm (by omega) (by omega)

/-- If pieces of two disjoint stored blocks are combinable siblings, each
piece must exhaust its whole block. -/
theorem pieces_combinable_eq {ni nj x y : IPNet} (hwi : Wf ni) (hwj : Wf nj)
    (hwx : Wf x) (hwy : Wf y) (hdis : disjointNets ni nj)
    (hxi : ∀ w v, x.memAddr w v → ni.memAddr w v)
    (hyj : ∀ w v, y.memAddr w v → nj.memAddr w v)
    (hcc : (x.CanCombineWith y).1 = true) (hlow : x.ip < y.ip) :
    ni = x ∧ nj = y := by
  obtain ⟨hwxy, hoxy, h1x, _⟩ := canCombineWith_cases hwx hwy hcc
  obtain ⟨hP, hyip, hPmem⟩ := merged_lower hwx hwy hcc hlow
  have hS : (⟨x.width, x.ones - 1, x.ip⟩ : IPNet).hostBits
      = x.hostBits + 1 := by
    show 8 * x.width - (x.ones - 1) = x.hostBits + 1
    have hb := hwx.2.1
    unfold IPNet.bits at hb
    unfold IPNet.hostBits IPNet.bits
    omega
  have hhxy : y.hostBits = x.hostBits := (hostBits_eq_of hwxy hoxy).symm
  have hni_x : ni.ContainsNet x = true :=
    containsNet_of_mem_subset hwx hwi hxi
  have hnj_y : nj.ContainsNet y = true :=
    containsNet_of_mem_subset hwy hwj hyj
  have hmemP_x : (⟨x.width, x.ones - 1, x.ip⟩ : IPNet).memAddr x.width x.ip :=
    (hPmem x.width x.ip).mpr (Or.inl (memAddr_self_ip hwx))
  have hmemP_y : (⟨x.width, x.ones - 1, x.ip⟩ : IPNet).memAddr y.width y.ip :=
    (hPmem y.width y.ip).mpr (Or.inr (memAddr_self_ip hwy))
  have hi : ni = x := by
    rcases overlap_containsNet hwi hP (hxi x.width x.ip (memAddr_self_ip hwx))
        hmemP_x with hcase | hcase
    · exfalso
      exact hdis y.width y.ip
        ⟨containsNet_mem hwi hP hcase hmemP_y,
         hyj y.width y.ip (memAddr_self_ip hwy)⟩
    · rcases dyadic_squeeze hwi hwx hP hni_x hcase hS with h | h
      · exact h
      · exfalso
        apply hdis y.width y.ip
        refine ⟨?_, hyj y.width y.ip (memAddr_self_ip hwy)⟩
        rw [h]
        exact hmemP_y
  have hj : nj = y := by
    rcases overlap_containsNet hwj hP (hyj y.width y.ip (memAddr_self_ip hwy))
        hmemP_y with hcase | hcase
    · exfalso
      exact hdis x.width x.ip
        ⟨hxi x.width x.ip (memAddr_self_ip hwx),
         containsNet_mem hwj hP hcase hmemP_x⟩
    · rcases dyadic_squeeze hwj hwy hP hnj_y hcase
        (by rw [hhxy]; exact hS) with h | h
      · exact h
      · exfalso
        apply hdis x.width x.ip
        refine ⟨hxi x.width x.ip (memAddr_self_ip hwx), ?_⟩
        rw [h]
        exact hmemP_x
  exact ⟨hi, hj⟩

theorem pieces_combine_false {ni nj x y : IPNet} (hwi : Wf ni) (hwj : Wf nj)
    (hwx : Wf x) (hwy : Wf y) (hdis : disjointNets ni nj)
    (hncc : (ni.CanCombineWith nj).1 = false)
    (hxi : ∀ w v, x.memAddr w v → ni.memAddr w v)
    (hyj : ∀ w v, y.memAddr w v → nj.memAddr w v) :
    (x.CanCombineWith y).1 = false := by
  by_contra hc
  have hcc : (x.CanCombineWith y).1 = true := by simpa using hc
  obtain ⟨_, _, _, hcase⟩ := canCombineWith_cases hwx hwy hcc
  have hpos := Nat.two_pow_pos x.hostBits
  have hEq : ni = x ∧ nj = y := by
    rcases hcase with ⟨hyi2, _⟩ | ⟨hxi2, _⟩
    · exact pieces_combinable_eq hwi hwj hwx hwy hdis hxi hyj hcc (by omega)
    · have hcc2 : (y.CanCombineWith x).1 = true :=
        (canCombineWith_symm hwx hwy).mp hcc
      have hdis2 : disjointNets nj ni := fun w v h => hdis w v ⟨h.2, h.1⟩
      obtain ⟨h1, h2⟩ := pieces_combinable_eq hwj hwi hwy hwx hdis2 hyj hxi
        hcc2 (by omega)
      exact ⟨h2, h1⟩
  rw [hEq.1, hEq.2] at hncc
  rw [hncc] at hcc
  exact absurd hcc (by simp)

theorem pieces_noCombine {ni nj x y : IPNet} (hwi : Wf ni) (hwj : Wf nj)
    (hwx : Wf x) (hwy : Wf y) (hdis : disjointNets ni nj)
    (hnc : noCombine ni nj)
    (hxi : ∀ w v, x.memAddr w v → ni.memAddr w v)
    (hyj : ∀ w v, y.memAddr w v → nj.memAddr w v) :
    noCombine x y :=
  ⟨pieces_combine_false hwi hwj hwx hwy hdis hnc.1 hxi hyj,
   pieces_combine_false hwj hwi hwy hwx (fun w v h => hdis w v ⟨h.2, h.1⟩)
     hnc.2 hyj hxi⟩

/-- The sorted replacement pieces of one stored node under `removeNet`:
canonical, inside the node, covering exactly the node minus the removed
network, ordered and with no combinable pair. -/
theorem removeNode_pieces {n net : IPNet} (hn : Wf n) (hnet : Wf net)
    (hc : net.ContainsNet n = false) :
    (∀ x ∈ sortNets (n.Difference net), Wf x ∧ x.width = n.width ∧
      (∀ w v, x.memAddr w v → n.memAddr w v)) ∧
    (∀ w v, (∃ x ∈ sortNets (n.Difference net), x.memAddr w v) ↔
      (n.memAddr w v ∧ ¬ net.memAddr w v)) ∧
    (sortNets (n.Difference net)).Pairwise before ∧
    (sortNets (n.Difference net)).Pairwise noCombine := by
  by_cases hw : n.width = net.width
  · by_cases h2 : n.ContainsNet net = true
    · obtain ⟨p1, p2, p3, _, _, p6⟩ :=
        diffRun_main (8 * n.width) hn hnet (hostBits_le_bits n)
      have hD : n.Difference net = diffRun (8 * n.width) n net := rfl
      rw [hD]
      have hperm : List.Perm (sortNets (diffRun (8 * n.width) n net))
          (diffRun (8 * n.width) n net) := sortNets_perm
      refine ⟨?_, ?_, ?_, ?_⟩
      · intro x hx
        exact p1 x (hperm.mem_iff.mp hx)
      · intro w v
        rw [← p2 w v]
        constructor
        · rintro ⟨x, hx, hxm⟩
          exact ⟨x, hperm.mem_iff.mp hx, hxm⟩
        · rintro ⟨x, hx, hxm⟩
          exact ⟨x, hperm.mem_iff.mpr hx, hxm⟩
      · exact sortNets_pairwise (fun x hx => (p1 x hx).1) p6
      · haveI : IsTrans IPNet (fun x y : IPNet => x.ones < y.ones) :=
          ⟨fun a b c h1 h2 => Nat.lt_trans h1 h2⟩
        have hpw := List.chain'_iff_pairwise.mp p3
        have hnc1 : (diffRun (8 * n.width) n net).Pairwise noCombine := by
          refine hpw.imp_of_mem ?_
          intro a b ha hb h
          exact noCombine_of_ones_ne (p1 a ha).1 (p1 b hb).1 (Nat.ne_of_lt h)
        exact hnc1.perm hperm.symm (fun {a b} h => ⟨h.2, h.1⟩)
    · have hD : n.Difference net = [n] :=
        diffRun_no_overlap hw hc (eq_false_of_ne_true h2)
      rw [hD]
      have hs : sortNets [n] = [n] := rfl
      rw [hs]
      refine ⟨?_, ?_, List.pairwise_singleton _ _, List.pairwise_singleton _ _⟩
      · intro x hx
        obtain rfl := List.mem_singleton.mp hx
        exact ⟨hn, rfl, fun w v h => h⟩
      · intro w v
        constructor
        · rintro ⟨x, hx, hxm⟩
          obtain rfl := List.mem_singleton.mp hx
          refine ⟨hxm, ?_⟩
          intro hnm
          rcases overlap_containsNet hn hnet hxm hnm with hcon | hcon
          · exact h2 hcon
          · rw [hcon] at hc
            exact absurd hc (by simp)
        · rintro ⟨h1, _⟩
          exact ⟨n, List.mem_singleton.mpr rfl, h1⟩
  · have hD : n.Difference net = [n] := diffRun_width_ne hw
    rw [hD]
    have hs : sortNets [n] = [n] := rfl
    rw [hs]
    refine ⟨?_, ?_, List.pairwise_singleton _ _, List.pairwise_singleton _ _⟩
    · intro x hx
      obtain rfl := List.mem_singleton.mp hx
      exact ⟨hn, rfl, fun w v h => h⟩
    · intro w v
      constructor
      · rintro ⟨x, hx, hxm⟩
        obtain rfl := List.mem_singleton.mp hx
        exact ⟨hxm, fun hnm => hw (hxm.1.trans hnm.1.symm)⟩
      · rintro ⟨h1, _⟩
        exact ⟨n, List.mem_singleton.mpr rfl, h1⟩

/-- Full behavior of `removeNet` on a set satisfying the invariant: the
invariant is preserved and the stored address set loses exactly the
removed network's range. -/
theorem remove_main {s : IPSet} {net : IPNet} (hG : Good s) (hw : Wf net) :
    Good (IPSet.RemoveIPNet s net) ∧
    (∀ w v, IPSet.memAddr (IPSet.RemoveIPNet s net) w v ↔
      (IPSet.memAddr s w v ∧ ¬ net.memAddr w v)) := by
  obtain ⟨hpb, hnc, hwf⟩ := hG
  have hEq : IPSet.RemoveIPNet s net =
      (s.map (fun node => if net.ContainsNet node then ([] : List IPNet)
        else sortNets (node.Difference net))).flatten := rfl
  have hFfacts : ∀ node ∈ s,
      (∀ x ∈ (if net.ContainsNet node then ([] : List IPNet)
          else sortNets (node.Difference net)), Wf x ∧ x.width = node.width ∧
        (∀ w v, x.memAddr w v → node.memAddr w v)) ∧
      (∀ w v, (∃ x ∈ (if net.ContainsNet node then ([] : List IPNet)
          else sortNets (node.Difference net)), x.memAddr w v) ↔
        (node.memAddr w v ∧ ¬ net.memAddr w v)) ∧
      (if net.ContainsNet node then ([] : List IPNet)
          else sortNets (node.Difference net)).Pairwise before ∧
      (if net.ContainsNet node then ([] : List IPNet)
          else sortNets (node.Difference net)).Pairwise noCombine := by
    intro node hns
    by_cases hcn : net.ContainsNet node = true
    · rw [if_pos hcn]
      refine ⟨fun x hx => absurd hx (by simp), ?_, List.Pairwise.nil,
        List.Pairwise.nil⟩
      intro w v
      constructor
      · rintro ⟨x, hx, _⟩
        exact absurd hx (by simp)
      · rintro ⟨h1, h2⟩
        exact absurd (containsNet_mem hw (hwf node hns) hcn h1) h2
    · rw [if_neg hcn]
      exact removeNode_pieces (hwf node hns) hw (eq_false_of_ne_true hcn)
  rw [hEq]
  refine ⟨⟨?_, ?_, ?_⟩, ?_⟩
  · rw [List.pairwise_flatten]
    constructor
    · intro l2 hl2
      obtain ⟨node, hns, rfl⟩ := List.mem_map.mp hl2
      exact (hFfacts node hns).2.2.1
    · rw [List.pairwise_map]
      refine hpb.imp_of_mem ?_
      intro a b ha hb hab x hx y hy
      obtain ⟨hwx, _, hxa⟩ := (hFfacts a ha).1 x hx
      obtain ⟨hwy, _, hyb⟩ := (hFfacts b hb).1 y hy
      exact before_pieces (hwf a ha) (hwf b hb) hwx hwy hab hxa hyb
  · rw [List.pairwise_flatten]
    constructor
    · intro l2 hl2
      obtain ⟨node, hns, rfl⟩ := List.mem_map.mp hl2
      exact (hFfacts node hns).2.2.2
    · rw [List.pairwise_map]
      refine (hpb.and hnc).imp_of_mem ?_
      intro a b ha hb hab x hx y hy
      obtain ⟨hwx, _, hxa⟩ := (hFfacts a ha).1 x hx
      obtain ⟨hwy, _, hyb⟩ := (hFfacts b hb).1 y hy
      have hdis : disjointNets a b := fun w v hp =>
        before_no_share hab.1 hp.1 hp.2
      exact pieces_noCombine (hwf a ha) (hwf b hb) hwx hwy hdis hab.2 hxa hyb
  · intro z hz
    obtain ⟨l2, hl2, hzl⟩ := List.mem_flatten.mp hz
    obtain ⟨node, hns, rfl⟩ := List.mem_map.mp hl2
    exact ((hFfacts node hns).1 z hzl).1
  · intro w v
    constructor
    · rintro ⟨z, hz, hzm⟩
      obtain ⟨l2, hl2, hzl⟩ := List.mem_flatten.mp hz
      obtain ⟨node, hns, rfl⟩ := List.mem_map.mp hl2
      have h3 := ((hFfacts node hns).2.1 w v).mp ⟨z, hzl, hzm⟩
      exact ⟨⟨node, hns, h3.1⟩, h3.2⟩
    · rintro ⟨⟨node, hns, hnm⟩, hnot⟩
      obtain ⟨x, hx, hxm⟩ := ((hFfacts node hns).2.1 w v).mpr ⟨hnm, hnot⟩
      exact ⟨x, List.mem_flatten.mpr
        ⟨_, List.mem_map.mpr ⟨node, hns, rfl⟩, hx⟩, hxm⟩

/-- Full behavior of `InsertIPNet` on a set satisfying the invariant. -/
theorem insert_main {s : IPSet} {net : IPNet} (hG : Good s) (hw : Wf net) :
    Good (IPSet.InsertIPNet s net) ∧
    (∃ nd ∈ IPSet.InsertIPNet s net,
      ∀ w v, net.memAddr w v → nd.memAddr w v) ∧
    (∀ w v, IPSet.memAddr (IPSet.InsertIPNet s net) w v ↔
      (IPSet.memAddr s w v ∨ net.memAddr w v)) :=
  insertLoop_main (net.ones + 1) s net (by omega) hG.1 hG.2.2 hw
    (Or.inl hG.2.1)

theorem foldl_insert_main : ∀ (l : List IPNet) (acc : IPSet), Good acc →
    (∀ n ∈ l, Wf n) →
    Good (l.foldl IPSet.InsertIPNet acc) ∧
    (∀ w v, IPSet.memAddr (l.foldl IPSet.InsertIPNet acc) w v ↔
      (IPSet.memAddr acc w v ∨ ∃ n ∈ l, n.memAddr w v)) := by
  intro l
  induction l with
  | nil =>
    intro acc hG _
    refine ⟨hG, fun w v => ?_⟩
    simp
  | cons n l ihl =>
    intro acc hG hwl
    have h1 := insert_main hG (hwl n (List.mem_cons_self ..))
    have h2 := ihl (IPSet.InsertIPNet acc n) h1.1
      (fun m hm => hwl m (List.mem_cons_of_mem _ hm))
    rw [List.foldl_cons]
    refine ⟨h2.1, ?_⟩
    intro w v
    rw [h2.2 w v, h1.2.2 w v]
    constructor
    · rintro ((h | h) | ⟨m, hm, hmm⟩)
      · exact Or.inl h
      · exact Or.inr ⟨n, List.mem_cons_self .., h⟩
      · exact Or.inr ⟨m, List.mem_cons_of_mem _ hm, hmm⟩
    · rintro (h | ⟨m, hm, hmm⟩)
      · exact Or.inl (Or.inl h)
      · rcases List.mem_cons.mp hm with rfl | hm2
        · exact Or.inl (Or.inr hmm)
        · exact Or.inr ⟨m, hm2, hmm⟩

theorem foldl_remove_main : ∀ (l : List IPNet) (acc : IPSet), Good acc →
    (∀ n ∈ l, Wf n) →
    Good (l.foldl IPSet.RemoveIPNet acc) ∧
    (∀ w v, IPSet.memAddr (l.foldl IPSet.RemoveIPNet acc) w v ↔
      (IPSet.memAddr acc w v ∧ ∀ n ∈ l, ¬ n.memAddr w v)) := by
  intro l
  induction l with
  | nil =>
    intro acc hG _
    refine ⟨hG, fun w v => ?_⟩
    simp
  | cons n l ihl =>
    intro acc hG hwl
    have h1 := remove_main hG (hwl n (List.mem_cons_self ..))
    have h2 := ihl (IPSet.RemoveIPNet acc n) h1.1
      (fun m hm => hwl m (List.mem_cons_of_mem _ hm))
    rw [List.foldl_cons]
    refine ⟨h2.1, ?_⟩
    intro w v
    rw [h2.2 w v, h1.2 w v]
    constructor
    · rintro ⟨⟨h1m, h1n⟩, hall⟩
      refine ⟨h1m, ?_⟩
      intro m hm
      rcases List.mem_cons.mp hm with rfl | hm2
      · exact h1n
      · exact hall m hm2
    · rintro ⟨hm, hall⟩
      exact ⟨⟨hm, hall n (List.mem_cons_self ..)⟩,
        fun m hm2 => hall m (List.mem_cons_of_mem _ hm2)⟩

theorem foldOps_good : ∀ (ops : List SetOp) (acc : IPSet), Good acc →
    (∀ op ∈ ops, Wf op.net) → Good (ops.foldl applyOp acc) := by
  intro ops
  induction ops with
  | nil =>
    intro acc hG _
    exact hG
  | cons op ops ihop =>
    intro acc hG hwf
    have hwo : Wf op.net := hwf op (List.mem_cons_self ..)
    have hstep : Good (applyOp acc op) := by
      cases op with
      | insertOp n => exact (insert_main hG hwo).1
      | removeOp n => exact (remove_main hG hwo).1
    rw [List.foldl_cons]
    exact ihop _ hstep (fun o ho => hwf o (List.mem_cons_of_mem _ ho))

theorem runOps_good {ops : List SetOp} (hwf : ∀ op ∈ ops, Wf op.net) :
    Good (runOps ops) :=
  foldOps_good ops [] ⟨List.Pairwise.nil, List.Pairwise.nil, by simp⟩ hwf

/-- C2: for every set satisfying the stored-form invariant and every
canonical network `a`, right after `InsertIPNet a` the query
`ContainsIPNet a` reports true, and every address contained before the
insert is still contained afterwards. -/
theorem insert_postcondition {s : IPSet} {a : IPNet} (hG : Good s)
    (ha : Wf a) :
    IPSet.ContainsIPNet (IPSet.InsertIPNet s a) a = true ∧
    (∀ w v, IPSet.memAddr s w v →
      IPSet.memAddr (IPSet.InsertIPNet s a) w v) := by
  obtain ⟨hGood, ⟨nd, hnd, hsub⟩, hmem⟩ := insert_main hG ha
  constructor
  · have hcnd : nd.ContainsNet a = true :=
      containsNet_of_mem_subset ha (hGood.2.2 nd hnd) hsub
    exact List.any_eq_true.mpr ⟨nd, hnd, hcnd⟩
  · intro w v h
    exact (hmem w v).mpr (Or.inl h)

theorem insert_postcondition_witness :
    Good [] ∧ Wf ⟨4, 24, 167772160⟩ ∧
    (IPSet.ContainsIPNet (IPSet.InsertIPNet [] ⟨4, 24, 167772160⟩)
        ⟨4, 24, 167772160⟩ = true ∧
     (∀ w v, IPSet.memAddr [] w v →
        IPSet.memAddr (IPSet.InsertIPNet [] ⟨4, 24, 167772160⟩) w v)) :=
  ⟨⟨List.Pairwise.nil, List.Pairwise.nil, by simp⟩, by decide,
   insert_postcondition ⟨List.Pairwise.nil, List.Pairwise.nil, by simp⟩
     (by decide)⟩

/-- C1: after any finite sequence of insert and remove operations starting
from the empty set, with canonical network arguments, the stored networks
are pairwise disjoint — no two sharing an address and neither of any pair
containing the other — and no pair is combinable in either order (the
coalescing loop has run to a fixed point). -/
theorem canonical_form_invariant {ops : List SetOp}
    (hwf : ∀ op ∈ ops, Wf op.net) :
    (runOps ops).Pairwise (fun x y => disjointNets x y ∧
      x.ContainsNet y = false ∧ y.ContainsNet x = false) ∧
    (runOps ops).Pairwise noCombine := by
  obtain ⟨hpb, hnc, hwfr⟩ := runOps_good hwf
  refine ⟨?_, hnc⟩
  refine hpb.imp_of_mem ?_
  intro a b ha hb hab
  have hdis : disjointNets a b := fun w v hp => before_no_share hab hp.1 hp.2
  refine ⟨hdis, ?_, ?_⟩
  · by_contra hc
    have hc2 : a.ContainsNet b = true := by simpa using hc
    exact hdis b.width b.ip ⟨containsNet_mem (hwfr a ha) (hwfr b hb) hc2
      (memAddr_self_ip (hwfr b hb)), memAddr_self_ip (hwfr b hb)⟩
  · by_contra hc
    have hc2 : b.ContainsNet a = true := by simpa using hc
    exact hdis a.width a.ip ⟨memAddr_self_ip (hwfr a ha),
      containsNet_mem (hwfr b hb) (hwfr a ha) hc2
        (memAddr_self_ip (hwfr a ha))⟩

theorem canonical_form_invariant_witness :
    (∀ op ∈ [SetOp.insertOp ⟨4, 24, 167772160⟩,
        SetOp.removeOp ⟨4, 25, 167772160⟩], Wf op.net) ∧
    ((runOps [SetOp.insertOp ⟨4, 24, 167772160⟩,
        SetOp.removeOp ⟨4, 25, 167772160⟩]).Pairwise (fun x y =>
          disjointNets x y ∧ x.ContainsNet y = false ∧
          y.ContainsNet x = false) ∧
     (runOps [SetOp.insertOp ⟨4, 24, 167772160⟩,
        SetOp.removeOp ⟨4, 25, 167772160⟩]).Pairwise noCombine) :=
  ⟨by decide, canonical_form_invariant (by decide)⟩

/-- C3 (amended): for a stored set satisfying the invariant and a
canonical network `n`, after `RemoveIPNet n` no address of `n` is
contained, every address outside `n` that was contained stays contained,
and the invariant is preserved.  Concretely, inserting 10.0.0.0/24 then
removing 10.0.0.0/25 leaves exactly the block 10.0.0.128/25; further
removing the single address 10.0.0.1 — an address no longer present —
leaves that single block of 128 addresses unchanged, whereas removing the
present address 10.0.0.129 splits the block into 7 stored blocks with
aggregate size 127. -/
theorem remove_postcondition {s : IPSet} {n : IPNet} (hG : Good s)
    (hn : Wf n) :
    ((∀ w v, n.memAddr w v → ¬ IPSet.memAddr (IPSet.RemoveIPNet s n) w v) ∧
     (∀ w v, IPSet.memAddr s w v → ¬ n.memAddr w v →
       IPSet.memAddr (IPSet.RemoveIPNet s n) w v) ∧
     Good (IPSet.RemoveIPNet s n)) ∧
    IPSet.RemoveIPNet (IPSet.InsertIPNet [] ⟨4, 24, 167772160⟩)
      ⟨4, 25, 167772160⟩ = [⟨4, 25, 167772288⟩] ∧
    IPSet.RemoveIPNet [⟨4, 25, 167772288⟩] ⟨4, 32, 167772161⟩
      = [⟨4, 25, 167772288⟩] ∧
    (IPSet.RemoveIPNet [⟨4, 25, 167772288⟩] ⟨4, 32, 167772289⟩).length = 7 ∧
    (IPSet.RemoveIPNet [⟨4, 25, 167772288⟩]
      ⟨4, 32, 167772289⟩).foldl (fun a x => a + x.Size) 0 = 127 := by
  obtain ⟨hGr, hmem⟩ := remove_main hG hn
  exact ⟨⟨fun w v hn2 hmem2 => ((hmem w v).mp hmem2).2 hn2,
    fun w v h1 h2 => (hmem w v).mpr ⟨h1, h2⟩, hGr⟩,
    by decide, by decide, by decide, by decide⟩

theorem remove_postcondition_witness :
    Good [(⟨4, 24, 167772160⟩ : IPNet)] ∧ Wf ⟨4, 25, 167772160⟩ ∧
    (((∀ w v, (⟨4, 25, 167772160⟩ : IPNet).memAddr w v →
        ¬ IPSet.memAddr (IPSet.RemoveIPNet [⟨4, 24, 167772160⟩]
          ⟨4, 25, 167772160⟩) w v) ∧
      (∀ w v, IPSet.memAddr [(⟨4, 24, 167772160⟩ : IPNet)] w v →
        ¬ (⟨4, 25, 167772160⟩ : IPNet).memAddr w v →
        IPSet.memAddr (IPSet.RemoveIPNet [⟨4, 24, 167772160⟩]
          ⟨4, 25, 167772160⟩) w v) ∧
      Good (IPSet.RemoveIPNet [⟨4, 24, 167772160⟩] ⟨4, 25, 167772160⟩)) ∧
     IPSet.RemoveIPNet (IPSet.InsertIPNet [] ⟨4, 24, 167772160⟩)
       ⟨4, 25, 167772160⟩ = [⟨4, 25, 167772288⟩] ∧
     IPSet.RemoveIPNet [⟨4, 25, 167772288⟩] ⟨4, 32, 167772161⟩
       = [⟨4, 25, 167772288⟩] ∧
     (IPSet.RemoveIPNet [⟨4, 25, 167772288⟩] ⟨4, 32, 167772289⟩).length
       = 7 ∧
     (IPSet.RemoveIPNet [⟨4, 25, 167772288⟩]
       ⟨4, 32, 167772289⟩).foldl (fun a x => a + x.Size) 0 = 127) :=
  ⟨by decide, by decide, remove_postcondition (by decide) (by decide)⟩

/-- C3, original wording refuted: after inserting 10.0.0.0/24 and
removing 10.0.0.0/25, further removing the single address 10.0.0.1 leaves
the set unchanged — one stored block (10.0.0.128/25) of 128 addresses —
not 7 blocks with aggregate size 127 as claimed: 10.0.0.1 lies in the
already-removed lower half, so the removal is a no-op. -/
theorem remove_scenario_counterexample :
    IPSet.RemoveIPNet (IPSet.RemoveIPNet
        (IPSet.InsertIPNet [] ⟨4, 24, 167772160⟩) ⟨4, 25, 167772160⟩)
        ⟨4, 32, 167772161⟩ = [⟨4, 25, 167772288⟩] ∧
    (IPSet.RemoveIPNet (IPSet.RemoveIPNet
        (IPSet.InsertIPNet [] ⟨4, 24, 167772160⟩) ⟨4, 25, 167772160⟩)
        ⟨4, 32, 167772161⟩).length = 1 ∧
    ¬ (IPSet.RemoveIPNet (IPSet.RemoveIPNet
        (IPSet.InsertIPNet [] ⟨4, 24, 167772160⟩) ⟨4, 25, 167772160⟩)
        ⟨4, 32, 167772161⟩).length = 7 ∧
    (IPSet.RemoveIPNet (IPSet.RemoveIPNet
        (IPSet.InsertIPNet [] ⟨4, 24, 167772160⟩) ⟨4, 25, 167772160⟩)
        ⟨4, 32, 167772161⟩).foldl (fun a x => a + x.Size) 0 = 128 := by
  decide

theorem foldl_guard_const : ∀ (l : List IPNet) (X : IPSet) (acc : IPSet),
    (∀ node ∈ l, IPSet.ContainsIPNet X node = false) →
    l.foldl (fun acc node => if IPSet.ContainsIPNet X node
      then IPSet.InsertIPNet acc node else acc) acc = acc := by
  intro l X
  induction l with
  | nil =>
    intro acc _
    rfl
  | cons n l ihl =>
    intro acc hg
    have hn := hg n (List.mem_cons_self ..)
    rw [List.foldl_cons, if_neg (by simp [hn])]
    exact ihl acc (fun m hm => hg m (List.mem_cons_of_mem _ hm))

/-- C9: for any two collections of canonical networks, the set built as
`S.Difference(T)` shares no stored network with `T` in either direction,
so `S.Difference(T).Intersection(T)` is the empty set. -/
theorem difference_intersection_empty {S T : IPSet}
    (hS : ∀ n ∈ S, Wf n) (hT : ∀ n ∈ T, Wf n) :
    IPSet.Intersection (IPSet.Difference S T) T = [] := by
  have h0 := foldl_insert_main S []
    ⟨List.Pairwise.nil, List.Pairwise.nil, by simp⟩ hS
  have hD := foldl_remove_main T (S.foldl IPSet.InsertIPNet []) h0.1 hT
  have hDef : IPSet.Difference S T
      = T.foldl IPSet.RemoveIPNet (S.foldl IPSet.InsertIPNet []) := rfl
  have hDwf : ∀ n ∈ IPSet.Difference S T, Wf n := by
    rw [hDef]
    exact hD.1.2.2
  have hDmem : ∀ w v, IPSet.memAddr (IPSet.Difference S T) w v →
      ∀ t ∈ T, ¬ t.memAddr w v := by
    rw [hDef]
    intro w v h
    exact ((hD.2 w v).mp h).2
  have g1 : ∀ node ∈ IPSet.Difference S T,
      IPSet.ContainsIPNet T node = false := by
    intro node hnode
    by_contra hc
    have hc2 : IPSet.ContainsIPNet T node = true := by
      simpa using hc
    have hc3 : T.any (fun nd => nd.ContainsNet node) = true := hc2
    obtain ⟨t, ht, htc⟩ := List.any_eq_true.mp hc3
    have hwn := hDwf node hnode
    exact hDmem node.width node.ip ⟨node, hnode, memAddr_self_ip hwn⟩ t ht
      (containsNet_mem (hT t ht) hwn htc (memAddr_self_ip hwn))
  have g2 : ∀ node ∈ T,
      IPSet.ContainsIPNet (IPSet.Difference S T) node = false := by
    intro node hnode
    by_contra hc
    have hc2 : IPSet.ContainsIPNet (IPSet.Difference S T) node = true := by
      simpa using hc
    have hc3 : (IPSet.Difference S T).any (fun nd => nd.ContainsNet node)
        = true := hc2
    obtain ⟨d, hd, hdc⟩ := List.any_eq_true.mp hc3
    have hwn := hT node hnode
    exact hDmem node.width node.ip
      ⟨d, hd, containsNet_mem (hDwf d hd) hwn hdc (memAddr_self_ip hwn)⟩
      node hnode (memAddr_self_ip hwn)
  have h1 : (IPSet.Difference S T).foldl (fun acc node =>
      if IPSet.ContainsIPNet T node then IPSet.InsertIPNet acc node else acc)
      [] = [] := foldl_guard_const _ _ _ g1
  have h2 : T.foldl (fun acc node =>
      if IPSet.ContainsIPNet (IPSet.Difference S T) node
      then IPSet.InsertIPNet acc node else acc) [] = [] :=
    foldl_guard_const _ _ _ g2
  show T.foldl (fun acc node =>
      if IPSet.ContainsIPNet (IPSet.Difference S T) node
      then IPSet.InsertIPNet acc node else acc)
    ((IPSet.Difference S T).foldl (fun acc node =>
      if IPSet.ContainsIPNet T node then IPSet.InsertIPNet acc node else acc)
      []) = []
  rw [h1, h2]

theorem difference_intersection_empty_witness :
    (∀ n ∈ [(⟨4, 24, 167772160⟩ : IPNet)], Wf n) ∧
    (∀ n ∈ [(⟨4, 25, 167772160⟩ : IPNet)], Wf n) ∧
    IPSet.Intersection (IPSet.Difference [⟨4, 24, 167772160⟩]
      [⟨4, 25, 167772160⟩]) [⟨4, 25, 167772160⟩] = [] :=
  ⟨by decide, by decide,
   difference_intersection_empty (by decide) (by decide)⟩

/-! ## Enumeration (`Expand` / `GetIPs`) -/

theorem expandFrom_eq : ∀ (k w ip : Nat), ip + k ≤ 2 ^ (8 * w) →
    expandFrom w ip k = (List.range k).map (fun i => ip + i) := by
  intro k
  induction k with
  | zero =>
    intro w ip _
    rfl
  | succ k ihk =>
    intro w ip h
    show ip :: expandFrom w (incrementIP w ip) k
        = (List.range (k + 1)).map (fun i => ip + i)
    rw [List.range_succ_eq_map, List.map_cons, List.map_map]
    congr 1
    cases k with
    | zero => rfl
    | succ k2 =>
      have hlt : ip + 1 < 2 ^ (8 * w) := by omega
      have hinc : incrementIP w ip = ip + 1 := by
        show (ip + 1) % 2 ^ (8 * w) = ip + 1
        exact Nat.mod_eq_of_lt hlt
      rw [hinc, ihk w (ip + 1) (by omega)]
      refine List.map_congr_left ?_
      intro a _
      show ip + 1 + a = ip + (a + 1)
      omega

/-- `Expand` enumerates, in ascending unit steps from the network address,
the first `min limit (min size 2^30)` addresses of the network. -/
theorem expand_eq {n : IPNet} (hn : Wf n) (limit : Nat) :
    n.Expand limit =
      (List.range (min limit (min (2 ^ n.hostBits) (2 ^ 30)))).map
        (fun i => n.ip + i) := by
  have hmx : (if n.hostBits < 30 then 2 ^ n.hostBits else 2 ^ 30)
      = min (2 ^ n.hostBits) (2 ^ 30) := by
    by_cases h30 : n.hostBits < 30
    · rw [if_pos h30,
        Nat.min_eq_left (Nat.pow_le_pow_right (by norm_num) (by omega))]
    · rw [if_neg h30,
        Nat.min_eq_right (Nat.pow_le_pow_right (by norm_num) (by omega))]
  show expandFrom n.width n.ip
      (if (if n.hostBits < 30 then 2 ^ n.hostBits else 2 ^ 30) < limit
       then (if n.hostBits < 30 then 2 ^ n.hostBits else 2 ^ 30)
       else limit) = _
  rw [hmx]
  have hsz : (if min (2 ^ n.hostBits) (2 ^ 30) < limit
      then min (2 ^ n.hostBits) (2 ^ 30) else limit)
      = min limit (min (2 ^ n.hostBits) (2 ^ 30)) := by
    by_cases hc : min (2 ^ n.hostBits) (2 ^ 30) < limit
    · rw [if_pos hc, Nat.min_eq_right (le_of_lt hc)]
    · rw [if_neg hc, Nat.min_eq_left (by omega)]
  rw [hsz]
  apply expandFrom_eq
  have h2 : n.ip + 2 ^ n.hostBits ≤ 2 ^ (8 * n.width) := ip_add_size_le hn
  omega

theorem chain_chunk (wd a : Nat) : ∀ k : Nat,
    List.Chain' addrKeyLt ((List.range k).map (fun i => (wd, a + i))) := by
  intro k
  rw [List.chain'_map]
  cases k with
  | zero => simp
  | succ k2 =>
    rw [List.chain'_range_succ]
    intro m _
    exact Or.inr ⟨rfl, (by omega : a + m < a + (m + 1))⟩

theorem getIPs_zero (s : IPSet) :
    IPSet.GetIPs s 0 = IPSet.GetIPs s maxIntGo := rfl

/-- Invariant-carrying fold for `GetIPs`: walking the remaining sorted
nodes with a budget keeps the collected addresses strictly ascending,
within the budget, and drawn from the walked networks. -/
theorem getIPs_fold : ∀ (l : List IPNet) (acc : List (Nat × Nat)) (lim : Nat),
    l.Pairwise before → (∀ z ∈ l, Wf z) →
    List.Chain' addrKeyLt acc →
    (∀ p ∈ acc, ∀ node ∈ l, addrKeyLt p (node.width, node.ip)) →
    acc.length ≤ lim →
    List.Chain' addrKeyLt (l.foldl (fun ips node =>
      ips ++ (node.Expand (lim - ips.length)).map (fun a => (node.width, a)))
      acc) ∧
    (l.foldl (fun ips node =>
      ips ++ (node.Expand (lim - ips.length)).map (fun a => (node.width, a)))
      acc).length ≤ lim ∧
    (∀ p ∈ l.foldl (fun ips node =>
        ips ++ (node.Expand (lim - ips.length)).map (fun a => (node.width, a)))
        acc,
      p ∈ acc ∨ ∃ node ∈ l, node.width = p.1 ∧ node.ip ≤ p.2 ∧
        p.2 ≤ node.BroadcastAddr) := by
  intro l
  induction l with
  | nil =>
    intro acc lim _ _ hch _ hlen
    exact ⟨hch, hlen, fun p hp => Or.inl hp⟩
  | cons node l ihl =>
    intro acc lim hpb hwf hch hsep hlen
    rw [List.foldl_cons]
    have hwn := hwf node (List.mem_cons_self ..)
    obtain ⟨hbn, hpb2⟩ := List.pairwise_cons.mp hpb
    have hEx := expand_eq hwn (lim - acc.length)
    obtain ⟨sz, hszdef⟩ : ∃ sz,
        min (lim - acc.length) (min (2 ^ node.hostBits) (2 ^ 30)) = sz :=
      ⟨_, rfl⟩
    rw [hszdef] at hEx
    have hchunk : (node.Expand (lim - acc.length)).map
        (fun a => (node.width, a))
        = (List.range sz).map (fun i => (node.width, node.ip + i)) := by
      rw [hEx, List.map_map]
      rfl
    rw [hchunk]
    have hsz_le : sz ≤ lim - acc.length := by omega
    have hsz_hb : sz ≤ 2 ^ node.hostBits := by omega
    have hbc := broadcastAddr_eq hwn
    have hpos := Nat.two_pow_pos node.hostBits
    have hchunk_mem : ∀ p ∈ (List.range sz).map
        (fun i => (node.width, node.ip + i)),
        node.width = p.1 ∧ node.ip ≤ p.2 ∧ p.2 ≤ node.BroadcastAddr := by
      intro p hp
      obtain ⟨i, hi, rfl⟩ := List.mem_map.mp hp
      have hilt : i < sz := List.mem_range.mp hi
      exact ⟨rfl, (by omega : node.ip ≤ node.ip + i),
        (by omega : node.ip + i ≤ node.BroadcastAddr)⟩
    have hch2 : List.Chain' addrKeyLt (acc
        ++ (List.range sz).map (fun i => (node.width, node.ip + i))) := by
      rw [List.chain'_append]
      refine ⟨hch, chain_chunk node.width node.ip sz, ?_⟩
      intro x hx y hy
      have hxa : x ∈ acc := List.mem_of_getLast?_eq_some hx
      rcases Nat.eq_zero_or_pos sz with hsz0 | hszpos
      · rw [hsz0] at hy
        simp at hy
      · obtain ⟨k, hk⟩ : ∃ k, sz = k + 1 := ⟨sz - 1, by omega⟩
        rw [hk, List.range_succ_eq_map, List.map_cons, List.head?_cons] at hy
        have hy2 : (node.width, node.ip + 0) = y := Option.some.inj hy
        subst hy2
        have hkey := hsep x hxa node (List.mem_cons_self ..)
        rw [Nat.add_zero]
        exact hkey
    have hlen2 : (acc ++ (List.range sz).map
        (fun i => (node.width, node.ip + i))).length ≤ lim := by
      rw [List.length_append, List.length_map, List.length_range]
      omega
    have hsep2 : ∀ p ∈ acc ++ (List.range sz).map
        (fun i => (node.width, node.ip + i)),
        ∀ nd ∈ l, addrKeyLt p (nd.width, nd.ip) := by
      intro p hp nd hnd
      rcases List.mem_append.mp hp with hp | hp
      · exact hsep p hp nd (List.mem_cons_of_mem _ hnd)
      · obtain ⟨hw1, hip1, hbc1⟩ := hchunk_mem p hp
        rcases hbn nd hnd with hwlt | ⟨hweq, hblt⟩
        · exact Or.inl (show p.1 < nd.width from by omega)
        · exact Or.inr ⟨show p.1 = nd.width from by omega,
            show p.2 < nd.ip from by omega⟩
    have hres := ihl (acc ++ (List.range sz).map
        (fun i => (node.width, node.ip + i))) lim hpb2
      (fun z hz => hwf z (List.mem_cons_of_mem _ hz)) hch2 hsep2 hlen2
    refine ⟨hres.1, hres.2.1, ?_⟩
    intro p hp
    rcases hres.2.2 p hp with hpacc | ⟨nd, hnd, hfacts⟩
    · rcases List.mem_append.mp hpacc with hp2 | hp2
      · exact Or.inl hp2
      · exact Or.inr ⟨node, List.mem_cons_self .., hchunk_mem p hp2⟩
    · exact Or.inr ⟨nd, List.mem_cons_of_mem _ hnd, hfacts⟩

/-- C7: `Expand` returns the network's addresses ascending from the
network address in unit steps, stopping at the limit or the 2^30 cap or
the network size, whichever is smallest; `GetIPs` walks the stored
networks in ascending order with the remaining budget, collects at most
`limit` addresses in strictly ascending (width, address) order, all drawn
from the stored networks, and a limit of 0 is read as the maximal Go
integer. -/
theorem expand_getips_spec {n : IPNet} {limit : Nat} {s : IPSet}
    (hn : Wf n) (hlim : 1 ≤ limit) (hG : Good s) :
    (n.Expand limit).length = min limit (min (2 ^ n.hostBits) (2 ^ 30)) ∧
    n.Expand limit =
      (List.range (min limit (min (2 ^ n.hostBits) (2 ^ 30)))).map
        (fun i => n.ip + i) ∧
    IPSet.GetIPs s 0 = IPSet.GetIPs s maxIntGo ∧
    List.Chain' addrKeyLt (IPSet.GetIPs s limit) ∧
    (IPSet.GetIPs s limit).length ≤ limit ∧
    (∀ p ∈ IPSet.GetIPs s limit, IPSet.memAddr s p.1 p.2) := by
  have hE := expand_eq hn limit
  have h0 : (limit == 0) = false := by
    simp only [beq_eq_false_iff_ne]
    omega
  have hGdef : IPSet.GetIPs s limit = s.foldl (fun ips node =>
      ips ++ (node.Expand (limit - ips.length)).map
        (fun a => (node.width, a))) [] := by
    show s.foldl (fun ips node =>
        ips ++ (node.Expand ((if (limit == 0) = true then maxIntGo else limit)
          - ips.length)).map (fun a => (node.width, a))) [] = _
    rw [h0]
    rw [show (if (false = true) then maxIntGo else limit) = limit from by
      simp]
  have hfold := getIPs_fold s [] limit hG.1 hG.2.2 List.chain'_nil
    (fun p hp => absurd hp (List.not_mem_nil p)) (by simp)
  refine ⟨?_, hE, getIPs_zero s, ?_, ?_, ?_⟩
  · rw [hE, List.length_map, List.length_range]
  · rw [hGdef]
    exact hfold.1
  · rw [hGdef]
    exact hfold.2.1
  · intro p hp
    rw [hGdef] at hp
    rcases hfold.2.2 p hp with h | ⟨node, hns, hw1, hip1, hbc1⟩
    · exact absurd h (List.not_mem_nil p)
    · exact ⟨node, hns, hw1, hip1, hbc1⟩

theorem expand_getips_spec_witness :
    Wf ⟨4, 29, 3405803776⟩ ∧ 1 ≤ 5 ∧
    Good [(⟨4, 29, 3405803776⟩ : IPNet)] ∧
    (((⟨4, 29, 3405803776⟩ : IPNet).Expand 5).length
        = min 5 (min (2 ^ (⟨4, 29, 3405803776⟩ : IPNet).hostBits) (2 ^ 30)) ∧
     (⟨4, 29, 3405803776⟩ : IPNet).Expand 5 =
       (List.range (min 5 (min (2 ^ (⟨4, 29, 3405803776⟩ : IPNet).hostBits)
           (2 ^ 30)))).map
         (fun i => (⟨4, 29, 3405803776⟩ : IPNet).ip + i) ∧
     IPSet.GetIPs [(⟨4, 29, 3405803776⟩ : IPNet)] 0
       = IPSet.GetIPs [(⟨4, 29, 3405803776⟩ : IPNet)] maxIntGo ∧
     List.Chain' addrKeyLt (IPSet.GetIPs [(⟨4, 29, 3405803776⟩ : IPNet)] 5) ∧
     (IPSet.GetIPs [(⟨4, 29, 3405803776⟩ : IPNet)] 5).length ≤ 5 ∧
     (∀ p ∈ IPSet.GetIPs [(⟨4, 29, 3405803776⟩ : IPNet)] 5,
       IPSet.memAddr [(⟨4, 29, 3405803776⟩ : IPNet)] p.1 p.2)) :=
  ⟨by decide, by decide, by decide,
   expand_getips_spec (by decide) (by decide) (by decide)⟩

end Netaddr
